import Mathlib

/-!
# Naive Bayes post classifier (`classifier.cpp`)

A shallow embedding of `class Classifier` and a verification of its training,
scoring and prediction routines.

Modelling conventions.

* A `std::string` is a `List Char`, ordered lexicographically character by character
  (the order `std::set<string>` and `std::map<string, _>` use).
* `std::set<string>` is the list of its elements in iteration (ascending) order;
  `std::map<string, V>` is the list of its key/value pairs in iteration order.
  `insert`, `find`, `at` and `operator[]` are ordered searches on that list.
* `int` counters are natural numbers (they only ever start at `0` and are incremented;
  a corpus is assumed to stay below `2^31` records, so no signed overflow occurs).
* `std::map::at` throws `std::out_of_range` on an absent key: functions that call it
  return `Option`, with `none` standing for the exception.
* `log(static_cast<double>(a) / b)` is a parameter `lg a b` of the scoring functions, with
  values in an arbitrary type `R`; the theorems about real-valued scores instantiate it with
  `Real.log (a / b)`.
* The CSV reader (`csvstream`) is outside the model: a file is the list of its rows, and a
  row is the pair of its `tag` and `content` columns.
-/

namespace NaiveBayes

/-- A `std::string`. -/
abbrev Str := List Char

/-! ## Ordered containers -/

section Containers

variable {α : Type} [LinearOrder α] {β : Type}

/-- The call `s.insert(a)` on a `std::set`. -/
def setInsert (a : α) : List α → List α
  | [] => [a]
  | b :: t => if a < b then a :: b :: t else if a = b then b :: t else b :: setInsert a t

/-- The test `s.find(a) != s.end()` on a `std::set`. -/
def setContains (a : α) : List α → Bool
  | [] => false
  | b :: t => if a < b then false else if a = b then true else setContains a t

/-- The call `m.find(k)` on a `std::map` (`none` for `m.end()`); also `m.at(k)`, with `none`
for the `std::out_of_range` exception. -/
def mapFind (k : α) : List (α × β) → Option β
  | [] => none
  | (k', v) :: t => if k < k' then none else if k = k' then some v else mapFind k t

/-- An in-place update `f` of `m[k]`, where `operator[]` first inserts the value-initialised
`d` when `k` is absent. -/
def mapModify (d : β) (f : β → β) (k : α) : List (α × β) → List (α × β)
  | [] => [(k, f d)]
  | (k', v) :: t =>
    if k < k' then (k, f d) :: (k', v) :: t
    else if k = k' then (k', f v) :: t
    else (k', v) :: mapModify d f k t

/-- The statement `m[k]++` on a `std::map<_, int>`. -/
def mapIncr (k : α) (m : List (α × Nat)) : List (α × Nat) :=
  mapModify 0 (fun n => n + 1) k m

end Containers

/-! ## The classifier -/

/-- A row of the CSV file, as read by `file >> line`: its `tag` and `content` columns. -/
structure Record where
  tag : Str
  content : Str
deriving DecidableEq

/-- The private fields of `class Classifier`. -/
structure Classifier where
  total_posts : Nat
  vocab : Nat
  posts_per_word : List (Str × Nat)
  all_words : List Str
  labels : List Str
  posts_per_label : List (Str × Nat)
  word_count_per_label : List (Str × List (Str × Nat))
deriving DecidableEq

/-- A default-constructed `Classifier`: the containers are empty, the two `int` fields are
not initialised and hold arbitrary values `t` and `v`. -/
def fresh (t v : Nat) : Classifier :=
  { total_posts := t, vocab := v, posts_per_word := [], all_words := [], labels := [],
    posts_per_label := [], word_count_per_label := [] }

/-- Whitespace as seen by `operator>>` in the default ("C") locale: space, `\t`, `\n`,
`\v`, `\f`, `\r`. -/
def isspace (c : Char) : Bool :=
  c = ' ' || c = '\t' || c = '\n' || c = '\x0b' || c = '\x0c' || c = '\r'

/-- One extraction `source >> word`: leading whitespace is skipped, then characters are read
up to the next whitespace or the end. It fails (`none`) when no character is left after the
skip; otherwise it gives the word and the rest of the stream. -/
def extract (source : Str) : Option (Str × Str) :=
  match source.dropWhile isspace with
  | [] => none
  | c :: cs => some ((c :: cs).takeWhile (fun x => !isspace x),
                     (c :: cs).dropWhile (fun x => !isspace x))

/-- The loop `while (source >> word) words.insert(word);`, with a bound on the number of
iterations. -/
def unique_words_loop : Nat → Str → List Str → List Str
  | 0, _, words => words
  | fuel + 1, source, words =>
    match extract source with
    | none => words
    | some (word, rest) => unique_words_loop fuel rest (setInsert word words)

/-- The method `Classifier::unique_words`. Every successful extraction consumes at least one
character, so `str.length + 1` iterations always reach the failing extraction. -/
def unique_words (str : Str) : List Str :=
  unique_words_loop (str.length + 1) str []

/-- The body of the inner `for` loop of `train`, for one word of the post. -/
def train_word (label : Str) (c : Classifier) (w : Str) : Classifier :=
  { c with
    all_words := setInsert w c.all_words
    posts_per_word := mapIncr w c.posts_per_word
    word_count_per_label := mapModify [] (mapIncr w) label c.word_count_per_label }

/-- The body of the `while (file >> line)` loop of `train`, for one row. -/
def train_record (c : Classifier) (line : Record) : Classifier :=
  let label := line.tag
  let content := line.content
  let c1 : Classifier :=
    { c with
      labels := setInsert label c.labels
      total_posts := c.total_posts + 1
      posts_per_label := mapIncr label c.posts_per_label }
  (unique_words content).foldl (train_word label) c1

/-- The method `Classifier::train`, on the rows of the file. -/
def train (c : Classifier) (file : List Record) : Classifier :=
  let c0 : Classifier := { c with total_posts := 0, vocab := 0 }
  let c1 := file.foldl train_record c0
  { c1 with vocab := c1.all_words.length }

/-- The first loop pair of `predict`: the words of `post` are inserted into a `std::set`,
whose elements are then copied in order into `sorted_post`. -/
def sorted_unique (post : List Str) : List Str :=
  post.foldl (fun unique w => setInsert w unique) []

section Scoring

variable {R : Type} [Add R]

/-- The body of the `for` loop of `calculate_log_prob`, for one word. -/
def log_prob_step (lg : Nat → Nat → R) (c : Classifier) (label : Str) (score : R)
    (current_word : Str) : Option R :=
  match mapFind label c.word_count_per_label with
  | none => none
  | some counts =>
    match mapFind current_word counts with
    | some word_count =>
      match mapFind label c.posts_per_label with
      | none => none
      | some n => some (score + lg word_count n)
    | none =>
      if setContains current_word c.all_words then
        match mapFind current_word c.posts_per_word with
        | none => none
        | some n => some (score + lg n c.total_posts)
      else some (score + lg 1 c.total_posts)

/-- The `for` loop of `calculate_log_prob`. -/
def log_prob_loop (lg : Nat → Nat → R) (c : Classifier) (label : Str) :
    R → List Str → Option R
  | score, [] => some score
  | score, w :: rest =>
    match log_prob_step lg c label score w with
    | none => none
    | some score1 => log_prob_loop lg c label score1 rest

/-- The method `Classifier::calculate_log_prob`. -/
def calculate_log_prob (lg : Nat → Nat → R) (c : Classifier) (sorted_post : List Str)
    (label : Str) : Option R :=
  match mapFind label c.posts_per_label with
  | none => none
  | some n => log_prob_loop lg c label (lg n c.total_posts) sorted_post

variable [LT R] [DecidableRel (fun a b : R => a < b)]

/-- The loop over `labels` of `predict`. `is_begin` is the test `it == labels.begin()`;
`best_score` is `none` while the variable is not initialised. -/
def predict_loop (lg : Nat → Nat → R) (c : Classifier) (sorted_post : List Str) :
    List Str → Bool → Option R → Str → Option Str
  | [], _, _, best_label => some best_label
  | label :: rest, is_begin, best_score, best_label =>
    match calculate_log_prob lg c sorted_post label with
    | none => none
    | some score =>
      let b1 : Option R × Str :=
        if is_begin then (some score, label) else (best_score, best_label)
      let b2 : Option R × Str :=
        match b1.1 with
        | some b => if b < score then (some score, label) else b1
        | none => b1
      predict_loop lg c sorted_post rest false b2.1 b2.2

/-- The method `Classifier::predict`. -/
def predict (lg : Nat → Nat → R) (c : Classifier) (post : List Str) : Option Str :=
  predict_loop lg c (sorted_unique post) c.labels true none []

end Scoring

/-! ## Auxiliary and specification-side definitions -/

/-- Merging `n` further occurrences into a stored count: the key stays as it is when `n = 0`,
and otherwise holds the old value (`0` if absent) plus `n`. -/
def bump (o : Option Nat) (n : Nat) : Option Nat :=
  if n = 0 then o else some (o.getD 0 + n)

/-- The count stored for word `w` under label `l` in a `map<string, map<string, int>>`:
`none` when `l` has no inner map or the inner map has no key `w`. -/
def wcGet {α : Type} [LinearOrder α] (wc : List (α × List (α × Nat))) (l w : α) : Option Nat :=
  match mapFind l wc with
  | none => none
  | some inner => mapFind w inner

/-- The number of rows of `rs` tagged `l`. -/
def count_label (rs : List Record) (l : Str) : Nat :=
  rs.countP (fun r => decide (r.tag = l))

/-- The number of rows of `rs` whose unique-word set contains `w`. -/
def count_word (rs : List Record) (w : Str) : Nat :=
  rs.countP (fun r => decide (w ∈ unique_words r.content))

/-- The number of rows of `rs` tagged `l` whose unique-word set contains `w`. -/
def count_label_word (rs : List Record) (l w : Str) : Nat :=
  rs.countP (fun r => decide (r.tag = l) && decide (w ∈ unique_words r.content))

/-- A stored count as the specification reads it: absent when `n = 0`, else `n`. -/
def stored (n : Nat) : Option Nat :=
  if n = 0 then none else some n

/-- Whitespace as the specification lists it: space, tab, newline. -/
def spec_whitespace (c : Char) : Bool :=
  c = ' ' || c = '\t' || c = '\n'

/-- The word `w` is a maximal run of non-whitespace characters of `s`, for the whitespace
test `ws`: `w` is not empty, has no whitespace character, and occurs in `s` as
`s = pre ++ w ++ post` where `pre` is empty or ends with a whitespace character and `post`
is empty or starts with one. -/
def MaximalRun (ws : Char → Bool) (s w : Str) : Prop :=
  w ≠ [] ∧ (∀ c ∈ w, ws c = false) ∧
    ∃ pre post, s = pre ++ w ++ post ∧
      (∀ x, pre.getLast? = some x → ws x = true) ∧
      (∀ x, post.head? = some x → ws x = true)

/-- The term that the word `w` adds to the score of label `l`, as the specification gives
it: the per-label estimate when `w` is a key of `word_count_per_label[l]`, else the
corpus-wide estimate when `w` is in `all_words`, else the floor `lg 1 total_posts`. -/
def score_term {R : Type} (lg : Nat → Nat → R) (c : Classifier) (l w : Str) : R :=
  match wcGet c.word_count_per_label l w with
  | some n => lg n ((mapFind l c.posts_per_label).getD 0)
  | none =>
    if w ∈ c.all_words then lg ((mapFind w c.posts_per_word).getD 0) c.total_posts
    else lg 1 c.total_posts

/-- A record of the calls made to `log` while a score is computed: the pair `(a, b)` stands
for one evaluation of `log(static_cast<double>(a) / b)`. -/
structure LogTrace where
  calls : List (Nat × Nat)

/-- Adding two scores, on records of calls: the calls of both, in order. -/
instance : Add LogTrace := ⟨fun x y => ⟨x.calls ++ y.calls⟩⟩

/-- The `log` that only records the quotient it is given. -/
def trace_log (a b : Nat) : LogTrace := ⟨[(a, b)]⟩

/-! ## Lemmas on the ordered containers -/

section ContainerLemmas

variable {α : Type} [LinearOrder α] {β : Type}

theorem mem_setInsert (x a : α) (s : List α) : x ∈ setInsert a s ↔ x = a ∨ x ∈ s := by
  induction s with
  | nil => simp [setInsert]
  | cons b t ih =>
    simp only [setInsert]
    split_ifs with h1 h2
    · simp
    · subst h2; simp
    · simp only [List.mem_cons, ih]; tauto

theorem setContains_setInsert (x a : α) (s : List α) :
    setContains x (setInsert a s) = (decide (x = a) || setContains x s) := by
  induction s with
  | nil =>
    simp only [setInsert, setContains]
    rcases lt_trichotomy x a with h | h | h
    · simp [h, ne_of_lt h]
    · subst h; simp
    · simp [not_lt_of_lt h, ne_of_gt h]
  | cons b t ih =>
    simp only [setInsert]
    rcases lt_trichotomy a b with h | h | h
    · simp only [h, if_true, setContains]
      rcases lt_trichotomy x a with h2 | h2 | h2
      · simp [h2, ne_of_lt h2, lt_trans h2 h]
      · subst h2; simp
      · simp [not_lt_of_lt h2, ne_of_gt h2]
    · subst h
      simp only [lt_irrefl, if_false, if_true, setContains]
      rcases lt_trichotomy x a with h2 | h2 | h2
      · simp [h2, ne_of_lt h2]
      · subst h2; simp
      · simp [not_lt_of_lt h2, ne_of_gt h2]
    · simp only [not_lt_of_lt h, ne_of_gt h, if_false, setContains, ih]
      rcases lt_trichotomy x b with h2 | h2 | h2
      · simp [h2, ne_of_lt (lt_trans h2 h)]
      · subst h2; simp [ne_of_lt h]
      · simp [not_lt_of_lt h2, ne_of_gt h2]

theorem sorted_setInsert (a : α) (s : List α) (h : s.Sorted (fun x y => x < y)) :
    (setInsert a s).Sorted (fun x y => x < y) := by
  induction s with
  | nil => simp [setInsert]
  | cons b t ih =>
    have hb := List.rel_of_sorted_cons h
    have ht := List.Sorted.of_cons h
    simp only [setInsert]
    split_ifs with h1 h2
    · refine List.sorted_cons.2 ⟨?_, h⟩
      intro y hy
      rcases List.mem_cons.1 hy with rfl | hy
      · exact h1
      · exact lt_trans h1 (hb y hy)
    · exact h
    · refine List.sorted_cons.2 ⟨?_, ih ht⟩
      intro y hy
      rcases (mem_setInsert y a t).1 hy with rfl | hy
      · exact lt_of_le_of_ne (not_lt.1 h1) (Ne.symm h2)
      · exact hb y hy

theorem setContains_iff_mem (a : α) (s : List α) (h : s.Sorted (fun x y => x < y)) :
    setContains a s = true ↔ a ∈ s := by
  induction s with
  | nil => simp [setContains]
  | cons b t ih =>
    have hb := List.rel_of_sorted_cons h
    have ht := List.Sorted.of_cons h
    simp only [setContains]
    split_ifs with h1 h2
    · simp only [Bool.false_eq_true, List.mem_cons, false_iff, not_or]
      exact ⟨ne_of_lt h1, fun hm => absurd (lt_trans h1 (hb a hm)) (lt_irrefl _)⟩
    · simp [h2]
    · simp only [ih ht, List.mem_cons, h2, false_or]

theorem setInsert_comm (a b : α) (s : List α) :
    setInsert a (setInsert b s) = setInsert b (setInsert a s) := by
  induction s with
  | nil =>
    simp only [setInsert]
    rcases lt_trichotomy a b with h | h | h
    · simp [setInsert, h, not_lt_of_lt h, ne_of_gt h]
    · subst h; simp
    · simp [setInsert, h, not_lt_of_lt h, ne_of_gt h]
  | cons c t ih =>
    rcases lt_trichotomy a b with hab | hab | hab
    · rcases lt_trichotomy b c with hbc | hbc | hbc
      · have hac := lt_trans hab hbc
        simp [setInsert, hab, hbc, hac, not_lt_of_lt hab, ne_of_gt hab]
      · subst hbc
        simp [setInsert, hab, not_lt_of_lt hab, ne_of_gt hab]
      · rcases lt_trichotomy a c with hac | hac | hac
        · simp [setInsert, hab, hac, not_lt_of_lt hbc, ne_of_gt hbc, not_lt_of_lt hab,
            ne_of_gt hab]
        · subst hac
          simp [setInsert, not_lt_of_lt hbc, ne_of_gt hbc]
        · simp [setInsert, not_lt_of_lt hbc, ne_of_gt hbc, not_lt_of_lt hac, ne_of_gt hac, ih]
    · subst hab; rfl
    · rcases lt_trichotomy a c with hac | hac | hac
      · have hbc := lt_trans hab hac
        simp [setInsert, hab, hbc, hac, not_lt_of_lt hab, ne_of_gt hab]
      · subst hac
        simp [setInsert, hab, not_lt_of_lt hab, ne_of_gt hab]
      · rcases lt_trichotomy b c with hbc | hbc | hbc
        · simp [setInsert, hab, hbc, not_lt_of_lt hac, ne_of_gt hac, not_lt_of_lt hab,
            ne_of_gt hab]
        · subst hbc
          simp [setInsert, not_lt_of_lt hac, ne_of_gt hac]
        · simp [setInsert, not_lt_of_lt hbc, ne_of_gt hbc, not_lt_of_lt hac, ne_of_gt hac, ih]

theorem mapFind_mapModify (d : β) (f : β → β) (j k : α) (m : List (α × β)) :
    mapFind j (mapModify d f k m)
      = if j = k then some (f ((mapFind k m).getD d)) else mapFind j m := by
  induction m with
  | nil =>
    simp only [mapModify, mapFind]
    split_ifs with h1 h2 <;> simp_all
  | cons p t ih =>
    obtain ⟨k', v⟩ := p
    simp only [mapModify]
    rcases lt_trichotomy k k' with h | h | h
    · simp only [h, if_true, mapFind]
      rcases lt_trichotomy j k with h2 | h2 | h2
      · simp [h2, ne_of_lt h2, lt_trans h2 h]
      · subst h2; simp [h]
      · simp [not_lt_of_lt h2, ne_of_gt h2]
    · subst h
      simp only [lt_irrefl, if_false, if_true, mapFind]
      rcases lt_trichotomy j k with h2 | h2 | h2
      · simp [h2, ne_of_lt h2]
      · subst h2; simp
      · simp [not_lt_of_lt h2, ne_of_gt h2]
    · simp only [not_lt_of_lt h, ne_of_gt h, if_false, mapFind, ih]
      rcases lt_trichotomy j k' with h2 | h2 | h2
      · simp [h2, ne_of_lt (lt_trans h2 h)]
      · subst h2; simp [ne_of_lt h]
      · simp [not_lt_of_lt h2, ne_of_gt h2]

theorem mapModify_comm (d : β) (f g : β → β) (hfg : ∀ x, f (g x) = g (f x)) (k k' : α)
    (m : List (α × β)) :
    mapModify d f k (mapModify d g k' m) = mapModify d g k' (mapModify d f k m) := by
  induction m with
  | nil =>
    simp only [mapModify]
    rcases lt_trichotomy k k' with h | h | h
    · simp [mapModify, h, not_lt_of_lt h, ne_of_gt h]
    · subst h; simp [hfg]
    · simp [mapModify, h, not_lt_of_lt h, ne_of_gt h]
  | cons p t ih =>
    obtain ⟨c, v⟩ := p
    rcases lt_trichotomy k k' with hab | hab | hab
    · rcases lt_trichotomy k' c with hbc | hbc | hbc
      · have hac := lt_trans hab hbc
        simp [mapModify, hab, hbc, hac, not_lt_of_lt hab, ne_of_gt hab]
      · subst hbc
        simp [mapModify, hab, not_lt_of_lt hab, ne_of_gt hab]
      · rcases lt_trichotomy k c with hac | hac | hac
        · simp [mapModify, hab, hac, not_lt_of_lt hbc, ne_of_gt hbc, not_lt_of_lt hab,
            ne_of_gt hab]
        · subst hac
          simp [mapModify, not_lt_of_lt hbc, ne_of_gt hbc]
        · simp [mapModify, not_lt_of_lt hbc, ne_of_gt hbc, not_lt_of_lt hac, ne_of_gt hac, ih]
    · subst hab
      rcases lt_trichotomy k c with hac | hac | hac
      · simp [mapModify, hac, hfg]
      · subst hac; simp [mapModify, hfg]
      · simp [mapModify, not_lt_of_lt hac, ne_of_gt hac, ih]
    · rcases lt_trichotomy k c with hac | hac | hac
      · have hbc := lt_trans hab hac
        simp [mapModify, hab, hbc, hac, not_lt_of_lt hab, ne_of_gt hab]
      · subst hac
        simp [mapModify, hab, not_lt_of_lt hab, ne_of_gt hab]
      · rcases lt_trichotomy k' c with hbc | hbc | hbc
        · simp [mapModify, hab, hbc, not_lt_of_lt hac, ne_of_gt hac, not_lt_of_lt hab,
            ne_of_gt hab]
        · subst hbc
          simp [mapModify, not_lt_of_lt hac, ne_of_gt hac]
        · simp [mapModify, not_lt_of_lt hbc, ne_of_gt hbc, not_lt_of_lt hac, ne_of_gt hac, ih]

theorem mapIncr_comm (k k' : α) (m : List (α × Nat)) :
    mapIncr k (mapIncr k' m) = mapIncr k' (mapIncr k m) :=
  mapModify_comm 0 _ _ (fun _ => rfl) k k' m

/-- Two families of updates that commute pairwise can be folded in either order. -/
theorem foldl_foldl_comm {σ ι κ : Type} (f : σ → ι → σ) (g : σ → κ → σ)
    (h : ∀ s a b, g (f s a) b = f (g s b) a) (as : List ι) (bs : List κ) (s : σ) :
    bs.foldl g (as.foldl f s) = as.foldl f (bs.foldl g s) := by
  induction as generalizing s with
  | nil => rfl
  | cons a as ih =>
    have h1 : ∀ (bs : List κ) (s : σ), bs.foldl g (f s a) = f (bs.foldl g s) a := by
      intro bs
      induction bs with
      | nil => intro s; rfl
      | cons b bs ihb => intro s; simp only [List.foldl_cons, h, ihb]
    simp only [List.foldl_cons, ih, h1]

theorem bump_zero (o : Option Nat) : bump o 0 = o := by simp [bump]

theorem bump_bump (o : Option Nat) (a b : Nat) : bump (bump o a) b = bump o (a + b) := by
  unfold bump
  by_cases ha : a = 0 <;> by_cases hb : b = 0 <;> simp [ha, hb, Nat.add_assoc]

theorem mapFind_mapIncr (j k : α) (m : List (α × Nat)) :
    mapFind j (mapIncr k m) = bump (mapFind j m) (if j = k then 1 else 0) := by
  unfold mapIncr
  rw [mapFind_mapModify]
  by_cases h : j = k
  · subst h; simp [bump]
  · simp [h, bump]

theorem mapFind_foldl_mapIncr (j : α) (ws : List α) (m : List (α × Nat)) :
    mapFind j (ws.foldl (fun m w => mapIncr w m) m)
      = bump (mapFind j m) (ws.countP (fun x => decide (x = j))) := by
  induction ws generalizing m with
  | nil => simp [bump]
  | cons w ws ih =>
    rw [List.foldl_cons, ih, mapFind_mapIncr, bump_bump, List.countP_cons]
    congr 1
    by_cases h : j = w
    · subst h; simp [Nat.add_comm]
    · have h2 : ¬ w = j := fun e => h e.symm
      simp [h, h2]

theorem countP_eq_of_nodup (j : α) (ws : List α) (h : ws.Nodup) :
    ws.countP (fun x => decide (x = j)) = if j ∈ ws then 1 else 0 := by
  induction ws with
  | nil => simp
  | cons w ws ih =>
    have h1 := (List.nodup_cons.1 h).1
    rw [List.countP_cons, ih (List.nodup_cons.1 h).2]
    by_cases hj : w = j
    · subst hj; simp [h1]
    · have h2 : ¬ j = w := fun e => hj e.symm
      simp [hj, h2]

theorem mem_foldl_setInsert (x : α) (ws s : List α) :
    x ∈ ws.foldl (fun s w => setInsert w s) s ↔ x ∈ ws ∨ x ∈ s := by
  induction ws generalizing s with
  | nil => simp
  | cons w ws ih =>
    rw [List.foldl_cons, ih, mem_setInsert, List.mem_cons]
    tauto

theorem setContains_foldl_setInsert (x : α) (ws s : List α) :
    setContains x (ws.foldl (fun s w => setInsert w s) s)
      = (decide (x ∈ ws) || setContains x s) := by
  induction ws generalizing s with
  | nil => simp
  | cons w ws ih =>
    rw [List.foldl_cons, ih, setContains_setInsert]
    by_cases h1 : x = w <;> by_cases h2 : x ∈ ws <;> simp [h1, h2]

theorem sorted_foldl_setInsert (ws s : List α) (h : s.Sorted (fun x y => x < y)) :
    (ws.foldl (fun s w => setInsert w s) s).Sorted (fun x y => x < y) := by
  induction ws generalizing s with
  | nil => exact h
  | cons w ws ih => exact ih _ (sorted_setInsert w s h)

theorem wcGet_modify (wc : List (α × List (α × Nat))) (label w l j : α) :
    wcGet (mapModify [] (mapIncr w) label wc) l j
      = if l = label then bump (wcGet wc l j) (if j = w then 1 else 0) else wcGet wc l j := by
  unfold wcGet
  rw [mapFind_mapModify]
  by_cases h : l = label
  · subst h
    simp only [if_true, mapFind_mapIncr]
    cases mapFind l wc <;> simp [mapFind]
  · simp [h]

theorem wcGet_foldl (label l j : α) (ws : List α) (wc : List (α × List (α × Nat))) :
    wcGet (ws.foldl (fun m w => mapModify [] (mapIncr w) label m) wc) l j
      = if l = label then bump (wcGet wc l j) (ws.countP (fun x => decide (x = j)))
        else wcGet wc l j := by
  induction ws generalizing wc with
  | nil => simp [bump]
  | cons w ws ih =>
    rw [List.foldl_cons, ih, wcGet_modify]
    by_cases h : l = label
    · simp only [h, if_true, bump_bump, List.countP_cons]
      congr 1
      by_cases h2 : j = w
      · subst h2; simp [Nat.add_comm]
      · have h3 : ¬ w = j := fun e => h2 e.symm
        simp [h2, h3]
    · simp [h]

theorem isSome_mapFind_foldl (label l : α) (ws : List α) (wc : List (α × List (α × Nat))) :
    (mapFind l (ws.foldl (fun m w => mapModify [] (mapIncr w) label m) wc)).isSome
      = ((mapFind l wc).isSome || (decide (l = label) && !ws.isEmpty)) := by
  induction ws generalizing wc with
  | nil => simp
  | cons w ws ih =>
    rw [List.foldl_cons, ih, mapFind_mapModify]
    by_cases h : l = label <;> simp [h]

end ContainerLemmas

/-! ## Maximal runs of non-whitespace characters -/

theorem maximalRun_of_no_ws (ws : Char → Bool) (a w : Str) (ha : ∀ c ∈ a, ws c = false) :
    MaximalRun ws a w ↔ a ≠ [] ∧ w = a := by
  constructor
  · rintro ⟨hne, _, pre, post, rfl, hpre, hpost⟩
    have h1 : pre = [] := by
      rcases List.eq_nil_or_concat pre with h | ⟨p, c, h⟩
      · exact h
      · subst h
        have := hpre c (by simp)
        rw [ha c (by simp)] at this
        exact absurd this (by simp)
    have h2 : post = [] := by
      cases post with
      | nil => rfl
      | cons c q =>
        have := hpost c (by simp)
        rw [ha c (by simp)] at this
        exact absurd this (by simp)
    subst h1 h2
    simpa using hne
  · rintro ⟨hne, rfl⟩
    exact ⟨hne, ha, [], [], by simp, by simp, by simp⟩

theorem not_maximalRun_nil (ws : Char → Bool) (w : Str) : ¬ MaximalRun ws [] w := by
  intro h
  exact ((maximalRun_of_no_ws ws [] w (by simp)).1 h).1 rfl

theorem maximalRun_split (ws : Char → Bool) (a b : Str) (c : Char) (hc : ws c = true)
    (w : Str) :
    MaximalRun ws (a ++ c :: b) w ↔ MaximalRun ws a w ∨ MaximalRun ws b w := by
  constructor
  · rintro ⟨hne, hw, pre, post, he, hpre, hpost⟩
    rw [List.append_assoc] at he
    rcases List.append_eq_append_iff.1 he with ⟨a', h1, h2⟩ | ⟨c', h1, h2⟩
    · cases a' with
      | nil =>
        exfalso
        cases w with
        | nil => exact hne rfl
        | cons x w' =>
          simp only [List.nil_append, List.cons_append, List.cons.injEq] at h2
          have := hw x (by simp)
          rw [← h2.1, hc] at this
          exact absurd this (by simp)
      | cons x a'' =>
        simp only [List.cons_append, List.cons.injEq] at h2
        right
        refine ⟨hne, hw, a'', post, by rw [h2.2, List.append_assoc], ?_, hpost⟩
        intro y hy
        apply hpre y
        rw [h1, List.getLast?_append]
        cases a'' with
        | nil => simp at hy
        | cons z a3 => rw [List.getLast?_cons_cons, hy]; rfl
    · rcases List.append_eq_append_iff.1 h2 with ⟨a', h3, h4⟩ | ⟨c'', h3, h4⟩
      · left
        refine ⟨hne, hw, pre, a', by rw [h1, h3, List.append_assoc], hpre, ?_⟩
        intro y hy
        apply hpost y
        rw [h4, List.head?_append, hy]
        rfl
      · cases c'' with
        | nil =>
          left
          simp only [List.append_nil] at h3
          refine ⟨hne, hw, pre, [], by rw [h1, h3, List.append_nil], hpre, by simp⟩
        | cons x t =>
          exfalso
          simp only [List.cons_append, List.cons.injEq] at h4
          have := hw x (by rw [h3]; simp)
          rw [← h4.1, hc] at this
          exact absurd this (by simp)
  · rintro (⟨hne, hw, pre, post, rfl, hpre, hpost⟩ | ⟨hne, hw, pre, post, rfl, hpre, hpost⟩)
    · refine ⟨hne, hw, pre, post ++ c :: b, by simp, hpre, ?_⟩
      intro y hy
      cases post with
      | nil =>
        simp only [List.nil_append, List.head?_cons, Option.some.injEq] at hy
        rw [← hy]; exact hc
      | cons z q => exact hpost y (by simpa using hy)
    · refine ⟨hne, hw, a ++ c :: pre, post, by simp, ?_, hpost⟩
      intro y hy
      rw [List.getLast?_append] at hy
      cases pre with
      | nil =>
        simp only [List.getLast?_singleton, Option.or_some, Option.some.injEq] at hy
        rw [← hy]; exact hc
      | cons z q =>
        rw [List.getLast?_cons_cons] at hy
        apply hpre y
        rw [List.getLast?_eq_getLast _ (List.cons_ne_nil z q)] at hy ⊢
        simpa using hy

theorem maximalRun_cons_ws (ws : Char → Bool) (b : Str) (c : Char) (hc : ws c = true)
    (w : Str) : MaximalRun ws (c :: b) w ↔ MaximalRun ws b w := by
  have h := maximalRun_split ws [] b c hc w
  simp only [List.nil_append] at h
  rw [h]
  constructor
  · rintro (h1 | h1)
    · exact absurd h1 (not_maximalRun_nil ws w)
    · exact h1
  · exact Or.inr

theorem maximalRun_append_ws (ws : Char → Bool) (lead b : Str)
    (hl : ∀ c ∈ lead, ws c = true) (w : Str) :
    MaximalRun ws (lead ++ b) w ↔ MaximalRun ws b w := by
  induction lead with
  | nil => simp
  | cons c lead ih =>
    rw [List.cons_append, maximalRun_cons_ws ws _ c (hl c (by simp))]
    exact ih (fun x hx => hl x (List.mem_cons_of_mem _ hx))

theorem maximalRun_word_rest (ws : Char → Bool) (word rest : Str)
    (hword : ∀ c ∈ word, ws c = false) (hne : word ≠ [])
    (hrest : ∀ x, rest.head? = some x → ws x = true) (w : Str) :
    MaximalRun ws (word ++ rest) w ↔ w = word ∨ MaximalRun ws rest w := by
  cases rest with
  | nil =>
    rw [List.append_nil, maximalRun_of_no_ws ws word w hword]
    constructor
    · rintro ⟨_, h⟩; exact Or.inl h
    · rintro (h | h)
      · exact ⟨hne, h⟩
      · exact absurd h (not_maximalRun_nil ws w)
  | cons d rest' =>
    have hd : ws d = true := hrest d rfl
    rw [maximalRun_split ws word rest' d hd, maximalRun_cons_ws ws rest' d hd,
      maximalRun_of_no_ws ws word w hword]
    constructor
    · rintro (⟨_, h⟩ | h)
      · exact Or.inl h
      · exact Or.inr h
    · rintro (h | h)
      · exact Or.inl ⟨hne, h⟩
      · exact Or.inr h

theorem head?_dropWhile_false (p : Char → Bool) (l : Str) (x : Char)
    (h : (l.dropWhile p).head? = some x) : p x = false := by
  have := List.head?_dropWhile_not p l
  rw [h] at this
  exact this

theorem extract_eq_none (s : Str) (h : s.dropWhile isspace = []) : extract s = none := by
  simp [extract, h]

theorem extract_eq_some (s : Str) (c : Char) (cs : Str) (h : s.dropWhile isspace = c :: cs) :
    extract s = some ((c :: cs).takeWhile (fun x => !isspace x),
                      (c :: cs).dropWhile (fun x => !isspace x)) := by
  simp [extract, h]

theorem mem_unique_words_loop (w : Str) (fuel : Nat) (s : Str) (words : List Str)
    (hlen : s.length < fuel) :
    w ∈ unique_words_loop fuel s words ↔ w ∈ words ∨ MaximalRun isspace s w := by
  induction fuel generalizing s words with
  | zero => exact absurd hlen (Nat.not_lt_zero _)
  | succ n ih =>
    have hs : s.takeWhile isspace ++ s.dropWhile isspace = s :=
      List.takeWhile_append_dropWhile isspace s
    have hlead : ∀ c ∈ s.takeWhile isspace, isspace c = true :=
      fun c hc => List.mem_takeWhile_imp hc
    have hrun : MaximalRun isspace s w ↔ MaximalRun isspace (s.dropWhile isspace) w := by
      conv_lhs => rw [← hs]
      exact maximalRun_append_ws isspace _ _ hlead w
    unfold unique_words_loop
    cases hd : s.dropWhile isspace with
    | nil =>
      rw [extract_eq_none s hd, hrun, hd]
      simp [not_maximalRun_nil]
    | cons c cs =>
      rw [extract_eq_some s c cs hd, hrun, hd]
      have hc : isspace c = false := head?_dropWhile_false isspace s c (by rw [hd]; rfl)
      have hsplit : (c :: cs).takeWhile (fun x => !isspace x)
          ++ (c :: cs).dropWhile (fun x => !isspace x) = c :: cs :=
        List.takeWhile_append_dropWhile _ _
      have hword : ∀ x ∈ (c :: cs).takeWhile (fun x => !isspace x), isspace x = false := by
        intro x hx
        have := List.mem_takeWhile_imp hx
        simpa using this
      have hne : (c :: cs).takeWhile (fun x => !isspace x) ≠ [] := by
        simp [List.takeWhile_cons, hc]
      have hrest : ∀ x, ((c :: cs).dropWhile (fun x => !isspace x)).head? = some x →
          isspace x = true := by
        intro x hx
        have := head?_dropWhile_false _ _ x hx
        simpa using this
      have hl : ((c :: cs).dropWhile (fun x => !isspace x)).length < n := by
        have h1 : ((c :: cs).dropWhile (fun x => !isspace x)).length ≤ cs.length := by
          simp only [List.dropWhile_cons, hc, Bool.not_false, if_true]
          exact (List.dropWhile_sublist _).length_le
        have h2 : (s.dropWhile isspace).length ≤ s.length :=
          (List.dropWhile_sublist _).length_le
        rw [hd, List.length_cons] at h2
        omega
      rw [ih _ _ hl, mem_setInsert]
      conv_rhs => rw [← hsplit, maximalRun_word_rest isspace _ _ hword hne hrest w]
      tauto

theorem mem_unique_words (s w : Str) : w ∈ unique_words s ↔ MaximalRun isspace s w := by
  unfold unique_words
  rw [mem_unique_words_loop w _ s [] (Nat.lt_succ_self _)]
  simp

/-! ## Lemmas on `unique_words` and `train` -/

theorem sorted_unique_words_loop (fuel : Nat) (source : Str) (words : List Str)
    (h : words.Sorted (fun x y => x < y)) :
    (unique_words_loop fuel source words).Sorted (fun x y => x < y) := by
  induction fuel generalizing source words with
  | zero => exact h
  | succ n ih =>
    unfold unique_words_loop
    cases extract source with
    | none => exact h
    | some p => exact ih _ _ (sorted_setInsert _ _ h)

theorem sorted_unique_words (str : Str) : (unique_words str).Sorted (fun x y => x < y) :=
  sorted_unique_words_loop _ _ _ List.sorted_nil

theorem nodup_unique_words (str : Str) : (unique_words str).Nodup :=
  (sorted_unique_words str).nodup

theorem foldl_train_word (label : Str) (ws : List Str) (c : Classifier) :
    ws.foldl (train_word label) c =
      { c with
        all_words := ws.foldl (fun s w => setInsert w s) c.all_words
        posts_per_word := ws.foldl (fun m w => mapIncr w m) c.posts_per_word
        word_count_per_label :=
          ws.foldl (fun m w => mapModify [] (mapIncr w) label m) c.word_count_per_label } := by
  induction ws generalizing c with
  | nil => rfl
  | cons w ws ih => rw [List.foldl_cons, ih]; rfl

theorem train_record_eq (c : Classifier) (r : Record) :
    train_record c r =
      { total_posts := c.total_posts + 1
        vocab := c.vocab
        posts_per_word := (unique_words r.content).foldl (fun m w => mapIncr w m) c.posts_per_word
        all_words := (unique_words r.content).foldl (fun s w => setInsert w s) c.all_words
        labels := setInsert r.tag c.labels
        posts_per_label := mapIncr r.tag c.posts_per_label
        word_count_per_label :=
          (unique_words r.content).foldl (fun m w => mapModify [] (mapIncr w) r.tag m)
            c.word_count_per_label } := by
  unfold train_record
  simp only [foldl_train_word]

/-- The state after the `while` loop of `train` has read the rows `rs`, starting from `c`. -/
theorem total_posts_foldl (rs : List Record) (c : Classifier) :
    (rs.foldl train_record c).total_posts = c.total_posts + rs.length := by
  induction rs generalizing c with
  | nil => rfl
  | cons r rs ih => rw [List.foldl_cons, ih, train_record_eq]; simp; omega

theorem mem_labels_foldl (rs : List Record) (c : Classifier) (l : Str) :
    l ∈ (rs.foldl train_record c).labels ↔ l ∈ c.labels ∨ ∃ r ∈ rs, r.tag = l := by
  induction rs generalizing c with
  | nil => simp
  | cons r rs ih =>
    rw [List.foldl_cons, ih, train_record_eq]
    simp only [mem_setInsert, List.mem_cons, exists_eq_or_imp]
    constructor
    · rintro ((h | h) | h)
      · exact Or.inr (Or.inl h.symm)
      · exact Or.inl h
      · exact Or.inr (Or.inr h)
    · rintro (h | h | h)
      · exact Or.inl (Or.inr h)
      · exact Or.inl (Or.inl h.symm)
      · exact Or.inr h

theorem sorted_labels_foldl (rs : List Record) (c : Classifier)
    (h : c.labels.Sorted (fun x y => x < y)) :
    (rs.foldl train_record c).labels.Sorted (fun x y => x < y) := by
  induction rs generalizing c with
  | nil => exact h
  | cons r rs ih =>
    rw [List.foldl_cons]
    apply ih
    rw [train_record_eq]
    exact sorted_setInsert _ _ h

theorem posts_per_label_foldl (rs : List Record) (c : Classifier) (l : Str) :
    mapFind l (rs.foldl train_record c).posts_per_label
      = bump (mapFind l c.posts_per_label) (count_label rs l) := by
  induction rs generalizing c with
  | nil => simp [count_label, bump]
  | cons r rs ih =>
    rw [List.foldl_cons, ih, train_record_eq]
    simp only [mapFind_mapIncr, bump_bump, count_label, List.countP_cons]
    congr 1
    by_cases h : l = r.tag
    · subst h; simp [Nat.add_comm]
    · have h2 : ¬ r.tag = l := fun e => h e.symm
      simp [h, h2]

theorem posts_per_word_foldl (rs : List Record) (c : Classifier) (w : Str) :
    mapFind w (rs.foldl train_record c).posts_per_word
      = bump (mapFind w c.posts_per_word) (count_word rs w) := by
  induction rs generalizing c with
  | nil => simp [count_word, bump]
  | cons r rs ih =>
    rw [List.foldl_cons, ih, train_record_eq]
    simp only [mapFind_foldl_mapIncr, bump_bump, count_word, List.countP_cons,
      countP_eq_of_nodup _ _ (nodup_unique_words r.content)]
    congr 1
    by_cases h : w ∈ unique_words r.content <;> simp [h, Nat.add_comm]

theorem word_count_per_label_foldl (rs : List Record) (c : Classifier) (l w : Str) :
    wcGet (rs.foldl train_record c).word_count_per_label l w
      = bump (wcGet c.word_count_per_label l w) (count_label_word rs l w) := by
  induction rs generalizing c with
  | nil => simp [count_label_word, bump]
  | cons r rs ih =>
    rw [List.foldl_cons, ih, train_record_eq]
    simp only [wcGet_foldl, count_label_word, List.countP_cons,
      countP_eq_of_nodup _ _ (nodup_unique_words r.content)]
    by_cases h : l = r.tag
    · subst h
      simp only [if_true, bump_bump, decide_True, Bool.true_and]
      congr 1
      by_cases h2 : w ∈ unique_words r.content <;> simp [h2, Nat.add_comm]
    · have h2 : ¬ r.tag = l := fun e => h e.symm
      simp [h, h2]

theorem isSome_word_count_per_label_foldl (rs : List Record) (c : Classifier) (l : Str) :
    (mapFind l (rs.foldl train_record c).word_count_per_label).isSome = true ↔
      (mapFind l c.word_count_per_label).isSome = true ∨
        ∃ r ∈ rs, r.tag = l ∧ unique_words r.content ≠ [] := by
  induction rs generalizing c with
  | nil => simp
  | cons r rs ih =>
    rw [List.foldl_cons, ih, train_record_eq]
    simp only [isSome_mapFind_foldl, List.mem_cons, exists_eq_or_imp, Bool.or_eq_true,
      Bool.and_eq_true, decide_eq_true_eq, Bool.not_eq_true', List.isEmpty_eq_false]
    constructor
    · rintro ((h | ⟨h1, h2⟩) | h)
      · exact Or.inl h
      · exact Or.inr (Or.inl ⟨h1.symm, h2⟩)
      · exact Or.inr (Or.inr h)
    · rintro (h | ⟨h1, h2⟩ | h)
      · exact Or.inl (Or.inl h)
      · exact Or.inl (Or.inr ⟨h1.symm, h2⟩)
      · exact Or.inr h

theorem mem_all_words_foldl (rs : List Record) (c : Classifier) (w : Str) :
    w ∈ (rs.foldl train_record c).all_words ↔
      w ∈ c.all_words ∨ ∃ r ∈ rs, w ∈ unique_words r.content := by
  induction rs generalizing c with
  | nil => simp
  | cons r rs ih =>
    rw [List.foldl_cons, ih, train_record_eq]
    simp only [mem_foldl_setInsert, List.mem_cons, exists_eq_or_imp]
    tauto

theorem sorted_all_words_foldl (rs : List Record) (c : Classifier)
    (h : c.all_words.Sorted (fun x y => x < y)) :
    (rs.foldl train_record c).all_words.Sorted (fun x y => x < y) := by
  induction rs generalizing c with
  | nil => exact h
  | cons r rs ih =>
    rw [List.foldl_cons]
    apply ih
    rw [train_record_eq]
    exact sorted_foldl_setInsert _ _ h

theorem train_record_comm (c : Classifier) (r1 r2 : Record) :
    train_record (train_record c r1) r2 = train_record (train_record c r2) r1 := by
  simp only [train_record_eq, Classifier.mk.injEq]
  refine ⟨trivial, trivial, ?_, ?_, ?_, ?_, ?_⟩
  · exact foldl_foldl_comm _ _ (fun s a b => mapIncr_comm b a s) _ _ _
  · exact foldl_foldl_comm _ _ (fun s a b => setInsert_comm b a s) _ _ _
  · exact setInsert_comm _ _ _
  · exact mapIncr_comm _ _ _
  · exact foldl_foldl_comm _ _
      (fun s a b => mapModify_comm [] (mapIncr b) (mapIncr a) (fun x => mapIncr_comm b a x)
        r2.tag r1.tag s) _ _ _

theorem foldl_train_record_perm (rs rs' : List Record) (h : rs.Perm rs') (c : Classifier) :
    rs.foldl train_record c = rs'.foldl train_record c :=
  h.foldl_eq' (fun x _ y _ z => train_record_comm z x y) c

theorem stored_eq_bump (n : Nat) : bump none n = stored n := by
  simp [bump, stored]

theorem getD_stored (n : Nat) : (stored n).getD 0 = n := by
  unfold stored
  by_cases h : n = 0 <;> simp [h]

theorem sum_map_indicator (a : Str) (p : Bool) (L : List Str) (hL : L.Nodup) :
    (L.map (fun l => if (decide (a = l) && p) = true then 1 else 0)).sum
      = if p = true ∧ a ∈ L then 1 else 0 := by
  induction L with
  | nil => simp
  | cons b L ih =>
    have h1 := (List.nodup_cons.1 hL).1
    rw [List.map_cons, List.sum_cons, ih (List.nodup_cons.1 hL).2]
    by_cases h : a = b
    · subst h; cases p <;> simp [h1]
    · cases p <;> simp [h]

theorem sum_count_label_word (w : Str) (L : List Str) (hL : L.Nodup) (rs : List Record)
    (h : ∀ r ∈ rs, r.tag ∈ L) :
    (L.map (fun l => count_label_word rs l w)).sum = count_word rs w := by
  induction rs with
  | nil => simp [count_label_word, count_word]
  | cons r rs ih =>
    have ih1 := ih (fun x hx => h x (List.mem_cons_of_mem _ hx))
    have hr : r.tag ∈ L := h r (List.mem_cons_self _ _)
    simp only [count_label_word, count_word, List.countP_cons] at ih1 ⊢
    rw [List.sum_map_add, ih1, sum_map_indicator _ _ _ hL]
    by_cases hw : w ∈ unique_words r.content <;> simp [hw, hr]

theorem unique_words_eq_of_mem_iff (s s' : Str)
    (h : ∀ w, w ∈ unique_words s ↔ w ∈ unique_words s') :
    unique_words s = unique_words s' :=
  List.eq_of_perm_of_sorted
    ((List.perm_ext_iff_of_nodup (nodup_unique_words s) (nodup_unique_words s')).2 h)
    (sorted_unique_words s) (sorted_unique_words s')

theorem getD_bump (o : Option Nat) (n : Nat) : (bump o n).getD 0 = o.getD 0 + n := by
  unfold bump
  by_cases h : n = 0 <;> simp [h]

theorem posts_per_word_train_record (c : Classifier) (r : Record) (w : Str) :
    mapFind w (train_record c r).posts_per_word
      = bump (mapFind w c.posts_per_word) (if w ∈ unique_words r.content then 1 else 0) := by
  have h := posts_per_word_foldl [r] c w
  simp only [List.foldl_cons, List.foldl_nil] at h
  rw [h]
  congr 1
  by_cases hw : w ∈ unique_words r.content <;> simp [count_word, hw]

theorem word_count_per_label_train_record (c : Classifier) (r : Record) (l w : Str) :
    wcGet (train_record c r).word_count_per_label l w
      = bump (wcGet c.word_count_per_label l w)
          (if r.tag = l ∧ w ∈ unique_words r.content then 1 else 0) := by
  have h := word_count_per_label_foldl [r] c l w
  simp only [List.foldl_cons, List.foldl_nil] at h
  rw [h]
  congr 1
  by_cases hl : r.tag = l <;> by_cases hw : w ∈ unique_words r.content <;>
    simp [count_label_word, hw, hl]

/-! ## The model built by `train` -/

theorem train_fresh_irrel (rs : List Record) (t v : Nat) :
    train (fresh t v) rs = train (fresh 0 0) rs := rfl

theorem total_posts_train (rs : List Record) (t v : Nat) :
    (train (fresh t v) rs).total_posts = rs.length := by
  simp [train, total_posts_foldl, fresh]

theorem sorted_labels_train (rs : List Record) (t v : Nat) :
    (train (fresh t v) rs).labels.Sorted (fun x y => x < y) :=
  sorted_labels_foldl _ _ List.sorted_nil

theorem mem_labels_train (rs : List Record) (t v : Nat) (l : Str) :
    l ∈ (train (fresh t v) rs).labels ↔ ∃ r ∈ rs, r.tag = l := by
  simp [train, mem_labels_foldl, fresh]

theorem posts_per_label_train (rs : List Record) (t v : Nat) (l : Str) :
    mapFind l (train (fresh t v) rs).posts_per_label = stored (count_label rs l) := by
  simp only [train, posts_per_label_foldl, fresh, mapFind, stored_eq_bump]

theorem posts_per_word_train (rs : List Record) (t v : Nat) (w : Str) :
    mapFind w (train (fresh t v) rs).posts_per_word = stored (count_word rs w) := by
  simp only [train, posts_per_word_foldl, fresh, mapFind, stored_eq_bump]

theorem word_count_per_label_train (rs : List Record) (t v : Nat) (l w : Str) :
    wcGet (train (fresh t v) rs).word_count_per_label l w
      = stored (count_label_word rs l w) := by
  have h := word_count_per_label_foldl rs
    { fresh t v with total_posts := 0, vocab := 0 } l w
  simpa only [fresh, wcGet, mapFind, stored_eq_bump] using h

theorem isSome_word_count_per_label_train (rs : List Record) (t v : Nat) (l : Str) :
    (mapFind l (train (fresh t v) rs).word_count_per_label).isSome = true ↔
      ∃ r ∈ rs, r.tag = l ∧ unique_words r.content ≠ [] := by
  have h := isSome_word_count_per_label_foldl rs
    { fresh t v with total_posts := 0, vocab := 0 } l
  simpa [fresh, mapFind] using h

theorem mem_all_words_train (rs : List Record) (t v : Nat) (w : Str) :
    w ∈ (train (fresh t v) rs).all_words ↔ ∃ r ∈ rs, w ∈ unique_words r.content := by
  simp [train, mem_all_words_foldl, fresh]

theorem sorted_all_words_train (rs : List Record) (t v : Nat) :
    (train (fresh t v) rs).all_words.Sorted (fun x y => x < y) :=
  sorted_all_words_foldl _ _ List.sorted_nil

theorem setContains_all_words_train (rs : List Record) (t v : Nat) (w : Str) :
    setContains w (train (fresh t v) rs).all_words = true
      ↔ ∃ r ∈ rs, w ∈ unique_words r.content := by
  rw [setContains_iff_mem _ _ (sorted_all_words_train rs t v), mem_all_words_train]

theorem count_label_word_le (rs : List Record) (l w : Str) :
    count_label_word rs l w ≤ count_label rs l := by
  unfold count_label_word count_label
  apply List.countP_mono_left
  intro r _ h
  simp only [Bool.and_eq_true] at h
  exact h.1

theorem count_label_word_le_word (rs : List Record) (l w : Str) :
    count_label_word rs l w ≤ count_word rs w := by
  unfold count_label_word count_word
  apply List.countP_mono_left
  intro r _ h
  simp only [Bool.and_eq_true] at h
  exact h.2

theorem count_label_le (rs : List Record) (l : Str) : count_label rs l ≤ rs.length :=
  List.countP_le_length _

theorem count_word_le (rs : List Record) (w : Str) : count_word rs w ≤ rs.length :=
  List.countP_le_length _

theorem count_label_pos (rs : List Record) (l : Str) :
    0 < count_label rs l ↔ ∃ r ∈ rs, r.tag = l := by
  simp [count_label, List.countP_pos_iff]

theorem count_word_pos (rs : List Record) (w : Str) :
    0 < count_word rs w ↔ ∃ r ∈ rs, w ∈ unique_words r.content := by
  simp [count_word, List.countP_pos_iff]

theorem count_label_word_pos (rs : List Record) (l w : Str) :
    0 < count_label_word rs l w ↔ ∃ r ∈ rs, r.tag = l ∧ w ∈ unique_words r.content := by
  simp [count_label_word, List.countP_pos_iff]

/-! ## Scoring on a trained model -/

theorem stored_eq_some_of_pos (n : Nat) (h : 0 < n) : stored n = some n := by
  unfold stored
  rw [if_neg (by omega)]

theorem stored_eq_some_iff (n k : Nat) : stored n = some k ↔ n = k ∧ 0 < n := by
  unfold stored
  by_cases h : n = 0
  · simp [h]
  · simp [h]
    intro _; omega

theorem stored_eq_none_iff (n : Nat) : stored n = none ↔ n = 0 := by
  unfold stored
  by_cases h : n = 0 <;> simp [h]

theorem log_prob_step_train {R : Type} [Add R] (lg : Nat → Nat → R) (rs : List Record)
    (t v : Nat) (l : Str) (score : R) (w : Str) :
    log_prob_step lg (train (fresh t v) rs) l score w
      = if (mapFind l (train (fresh t v) rs).word_count_per_label).isSome = true
        then some (score + score_term lg (train (fresh t v) rs) l w) else none := by
  have hwc := word_count_per_label_train rs t v l w
  have hpl := posts_per_label_train rs t v l
  have hpw := posts_per_word_train rs t v w
  have hall := setContains_iff_mem w _ (sorted_all_words_train rs t v)
  have hmem := mem_all_words_train rs t v w
  unfold log_prob_step score_term
  unfold wcGet at hwc ⊢
  cases h1 : mapFind l (train (fresh t v) rs).word_count_per_label with
  | none => simp
  | some counts =>
    simp only [h1] at hwc
    simp only [Option.isSome_some, if_true]
    cases h2 : mapFind w counts with
    | some n =>
      rw [h2] at hwc
      have h3 := (stored_eq_some_iff _ _).1 hwc.symm
      have h4 : 0 < count_label rs l := lt_of_lt_of_le h3.2 (count_label_word_le rs l w)
      rw [hpl, stored_eq_some_of_pos _ h4]
      simp
    | none =>
      simp only
      by_cases h5 : w ∈ (train (fresh t v) rs).all_words
      · have h6 : 0 < count_word rs w := (count_word_pos rs w).2 (hmem.1 h5)
        rw [if_pos (hall.2 h5), if_pos h5, hpw, stored_eq_some_of_pos _ h6]
        simp
      · have h6 : setContains w (train (fresh t v) rs).all_words = false := by
          cases h7 : setContains w (train (fresh t v) rs).all_words
          · rfl
          · exact absurd (hall.1 h7) h5
        rw [h6, if_neg h5]
        simp

theorem log_prob_loop_train {R : Type} [AddCommMonoid R] (lg : Nat → Nat → R)
    (rs : List Record) (t v : Nat) (l : Str) (score : R) (post : List Str) :
    log_prob_loop lg (train (fresh t v) rs) l score post
      = if post = [] ∨ (mapFind l (train (fresh t v) rs).word_count_per_label).isSome = true
        then some (score + (post.map (score_term lg (train (fresh t v) rs) l)).sum)
        else none := by
  induction post generalizing score with
  | nil => simp [log_prob_loop]
  | cons w post ih =>
    unfold log_prob_loop
    rw [log_prob_step_train]
    by_cases h : (mapFind l (train (fresh t v) rs).word_count_per_label).isSome = true
    · simp only [h, if_true, ih, or_true, List.map_cons, List.sum_cons, add_assoc]
    · simp [h]

theorem calculate_log_prob_train {R : Type} [AddCommMonoid R] (lg : Nat → Nat → R)
    (rs : List Record) (t v : Nat) (l : Str) (post : List Str) :
    calculate_log_prob lg (train (fresh t v) rs) post l
      = if l ∈ (train (fresh t v) rs).labels ∧
            (post = [] ∨
              (mapFind l (train (fresh t v) rs).word_count_per_label).isSome = true)
        then some (lg (count_label rs l) rs.length
              + (post.map (score_term lg (train (fresh t v) rs) l)).sum)
        else none := by
  unfold calculate_log_prob
  rw [posts_per_label_train, total_posts_train]
  by_cases h : l ∈ (train (fresh t v) rs).labels
  · have h1 : 0 < count_label rs l :=
      (count_label_pos rs l).2 ((mem_labels_train rs t v l).1 h)
    rw [stored_eq_some_of_pos _ h1]
    simp only [log_prob_loop_train, h, true_and]
  · have h1 : count_label rs l = 0 := by
      by_contra h2
      exact h ((mem_labels_train rs t v l).2
        ((count_label_pos rs l).1 (Nat.pos_of_ne_zero h2)))
    rw [h1]
    simp [stored, h]

theorem calculate_log_prob_isSome_train {R : Type} [AddCommMonoid R] (lg : Nat → Nat → R)
    (rs : List Record) (t v : Nat) (l : Str) (post : List Str) :
    (∃ x, calculate_log_prob lg (train (fresh t v) rs) post l = some x) ↔
      l ∈ (train (fresh t v) rs).labels ∧
        (post = [] ∨ ∃ r ∈ rs, r.tag = l ∧ unique_words r.content ≠ []) := by
  rw [calculate_log_prob_train, ← isSome_word_count_per_label_train rs t v l]
  by_cases hc : l ∈ (train (fresh t v) rs).labels ∧ (post = [] ∨
      (mapFind l (train (fresh t v) rs).word_count_per_label).isSome = true)
  · simp [hc]
  · rw [if_neg hc]
    constructor
    · rintro ⟨x, hx⟩
      exact absurd hx (by simp)
    · intro h
      exact absurd h hc

theorem score_term_train {R : Type} (lg : Nat → Nat → R) (rs : List Record) (t v : Nat)
    (l w : Str) :
    score_term lg (train (fresh t v) rs) l w
      = if 0 < count_label_word rs l w then lg (count_label_word rs l w) (count_label rs l)
        else if 0 < count_word rs w then lg (count_word rs w) rs.length
        else lg 1 rs.length := by
  unfold score_term
  rw [word_count_per_label_train, posts_per_label_train, posts_per_word_train,
    total_posts_train, getD_stored, getD_stored]
  by_cases h1 : 0 < count_label_word rs l w
  · rw [stored_eq_some_of_pos _ h1, if_pos h1]
  · rw [(stored_eq_none_iff _).2 (by omega), if_neg h1]
    simp only [mem_all_words_train, ← count_word_pos]

/-! ## The selection loop of `predict` -/

theorem loop_selects_argmax {R : Type} [LinearOrder R] [Add R] (lg : Nat → Nat → R)
    (c : Classifier) (sp : List Str) (ls : List Str) (b : R) (bl : Str)
    (hsorted : (bl :: ls).Sorted (fun x y => x < y))
    (hb : calculate_log_prob lg c sp bl = some b)
    (hs : ∀ l ∈ ls, ∃ x, calculate_log_prob lg c sp l = some x) :
    ∃ L sL, predict_loop lg c sp ls false (some b) bl = some L ∧ L ∈ bl :: ls ∧
      calculate_log_prob lg c sp L = some sL ∧
      (∀ l ∈ bl :: ls, ∀ s, calculate_log_prob lg c sp l = some s → s ≤ sL) ∧
      (∀ l ∈ bl :: ls, calculate_log_prob lg c sp l = some sL → L ≤ l) := by
  induction ls generalizing b bl with
  | nil =>
    refine ⟨bl, b, rfl, by simp, hb, ?_, ?_⟩
    · intro l hl s hls
      rw [List.mem_singleton] at hl
      subst hl
      rw [hb] at hls
      exact le_of_eq (Option.some.inj hls).symm
    · intro l hl _
      rw [List.mem_singleton] at hl
      exact le_of_eq hl.symm
  | cons l ls ih =>
    obtain ⟨s, hls⟩ := hs l (List.mem_cons_self _ _)
    have hs' : ∀ x ∈ ls, ∃ y, calculate_log_prob lg c sp x = some y :=
      fun x hx => hs x (List.mem_cons_of_mem _ hx)
    have hbl : bl < l := List.rel_of_sorted_cons hsorted l (List.mem_cons_self _ _)
    unfold predict_loop
    rw [hls]
    by_cases hlt : b < s
    · simp only [Bool.false_eq_true, if_false, if_pos hlt]
      obtain ⟨L, sL, h1, h2, h3, h4, h5⟩ := ih s l (List.Sorted.of_cons hsorted) hls hs'
      have hsle : s ≤ sL := h4 l (List.mem_cons_self _ _) s hls
      refine ⟨L, sL, h1, List.mem_cons_of_mem _ h2, h3, ?_, ?_⟩
      · intro x hx y hxy
        rcases List.mem_cons.1 hx with rfl | hx
        · rw [hb] at hxy
          rw [← Option.some.inj hxy]
          exact le_of_lt (lt_of_lt_of_le hlt hsle)
        · exact h4 x hx y hxy
      · intro x hx hxy
        rcases List.mem_cons.1 hx with rfl | hx
        · rw [hb] at hxy
          rw [← Option.some.inj hxy] at hsle
          exact absurd hlt (not_lt_of_le hsle)
        · exact h5 x hx hxy
    · simp only [Bool.false_eq_true, if_false, if_neg hlt]
      have hsorted' : (bl :: ls).Sorted (fun x y => x < y) := by
        have h1 := List.sorted_cons.1 hsorted
        exact List.sorted_cons.2 ⟨fun y hy => h1.1 y (List.mem_cons_of_mem _ hy),
          List.Sorted.of_cons h1.2⟩
      obtain ⟨L, sL, h1, h2, h3, h4, h5⟩ := ih b bl hsorted' hb hs'
      have hble : b ≤ sL := h4 bl (List.mem_cons_self _ _) b hb
      refine ⟨L, sL, h1, ?_, h3, ?_, ?_⟩
      · rcases List.mem_cons.1 h2 with h | h
        · exact List.mem_cons.2 (Or.inl h)
        · exact List.mem_cons_of_mem _ (List.mem_cons_of_mem _ h)
      · intro x hx y hxy
        rcases List.mem_cons.1 hx with rfl | hx
        · exact h4 x (List.mem_cons_self _ _) y hxy
        · rcases List.mem_cons.1 hx with rfl | hx
          · rw [hls] at hxy
            rw [← Option.some.inj hxy]
            exact le_trans (not_lt.1 hlt) hble
          · exact h4 x (List.mem_cons_of_mem _ hx) y hxy
      · intro x hx hxy
        rcases List.mem_cons.1 hx with rfl | hx
        · exact h5 x (List.mem_cons_self _ _) hxy
        · rcases List.mem_cons.1 hx with rfl | hx
          · rw [hls] at hxy
            have hseq : s = sL := Option.some.inj hxy
            have hbeq : b = sL := le_antisymm hble (hseq ▸ not_lt.1 hlt)
            have := h5 bl (List.mem_cons_self _ _) (hbeq ▸ hb)
            exact le_trans this (le_of_lt hbl)
          · exact h5 x (List.mem_cons_of_mem _ hx) hxy

theorem argmax_of_sorted_labels {R : Type} [LinearOrder R] [Add R] (lg : Nat → Nat → R)
    (c : Classifier) (post : List Str) (hne : c.labels ≠ [])
    (hsorted : c.labels.Sorted (fun x y => x < y))
    (hs : ∀ l ∈ c.labels, ∃ x, calculate_log_prob lg c (sorted_unique post) l = some x) :
    ∃ L sL, predict lg c post = some L ∧ L ∈ c.labels ∧
      calculate_log_prob lg c (sorted_unique post) L = some sL ∧
      (∀ l ∈ c.labels, ∀ s,
        calculate_log_prob lg c (sorted_unique post) l = some s → s ≤ sL) ∧
      (∀ l ∈ c.labels, calculate_log_prob lg c (sorted_unique post) l = some sL → L ≤ l) := by
  unfold predict
  cases hlab : c.labels with
  | nil => exact absurd hlab hne
  | cons l0 ls =>
    rw [hlab] at hs hsorted
    obtain ⟨s0, h0⟩ := hs l0 (List.mem_cons_self _ _)
    have h := loop_selects_argmax lg c (sorted_unique post) ls s0 l0 hsorted h0
      (fun x hx => hs x (List.mem_cons_of_mem _ hx))
    unfold predict_loop
    rw [h0]
    simpa using h

/-! ## Separable corpora -/

theorem count_label_add_le (rs : List Record) (a b : Str) (hab : a ≠ b) :
    count_label rs a + count_label rs b ≤ rs.length := by
  induction rs with
  | nil => simp [count_label]
  | cons r rs ih =>
    simp only [count_label, List.countP_cons, List.length_cons] at ih ⊢
    by_cases h1 : r.tag = a
    · have h2 : ¬ r.tag = b := fun e => hab (h1.symm.trans e)
      rw [if_pos (by simpa using h1), if_neg (by simpa using h2)]
      omega
    · by_cases h2 : r.tag = b
      · rw [if_neg (by simpa using h1), if_pos (by simpa using h2)]
        omega
      · rw [if_neg (by simpa using h1), if_neg (by simpa using h2)]
        omega

theorem count_label_word_eq_zero (rs : List Record) (a l w : Str) (hl : l ≠ a)
    (h : ∀ r ∈ rs, w ∈ unique_words r.content → r.tag = a) :
    count_label_word rs l w = 0 := by
  unfold count_label_word
  rw [List.countP_eq_zero]
  intro r hr
  simp only [Bool.and_eq_true, decide_eq_true_eq, not_and]
  intro h1 h2
  exact hl (h1.symm.trans (h r hr h2))

theorem count_word_eq_count_label_word (rs : List Record) (a w : Str)
    (h : ∀ r ∈ rs, w ∈ unique_words r.content → r.tag = a) :
    count_word rs w = count_label_word rs a w := by
  unfold count_word count_label_word
  apply List.countP_congr
  intro r hr
  simp only [Bool.and_eq_true, decide_eq_true_eq]
  exact ⟨fun h1 => ⟨h r hr h1, h1⟩, fun h1 => h1.2⟩

theorem log_sum_lt (N cA cL : ℕ) (k : Str → ℕ) (U : List Str) (hU : U ≠ [])
    (hcA : 0 < cA) (hcL : 0 < cL) (hN : cA + cL ≤ N) (hk : ∀ w ∈ U, 0 < k w) :
    Real.log ((cL : ℝ) / (N : ℝ)) + (U.map (fun w => Real.log ((k w : ℝ) / (N : ℝ)))).sum
      < Real.log ((cA : ℝ) / (N : ℝ))
        + (U.map (fun w => Real.log ((k w : ℝ) / (cA : ℝ)))).sum := by
  have hNpos : (0 : ℝ) < N := by exact_mod_cast (by omega : 0 < N)
  have hApos : (0 : ℝ) < cA := by exact_mod_cast hcA
  have hLpos : (0 : ℝ) < cL := by exact_mod_cast hcL
  have hAN : (cA : ℝ) ≤ N := by exact_mod_cast (by omega : cA ≤ N)
  have hLN : (cL : ℝ) < N := by exact_mod_cast (by omega : cL < N)
  have hterm : ∀ w, 0 < k w →
      Real.log ((k w : ℝ) / (N : ℝ)) ≤ Real.log ((k w : ℝ) / (cA : ℝ)) := by
    intro w hw
    have hkpos : (0 : ℝ) < k w := by exact_mod_cast hw
    exact Real.log_le_log (div_pos hkpos hNpos)
      (div_le_div_of_nonneg_left (le_of_lt hkpos) hApos hAN)
  cases U with
  | nil => exact absurd rfl hU
  | cons w0 U' =>
    have hk0 : (0 : ℝ) < k w0 := by exact_mod_cast hk w0 (List.mem_cons_self _ _)
    have h1 : (U'.map (fun w => Real.log ((k w : ℝ) / (N : ℝ)))).sum
        ≤ (U'.map (fun w => Real.log ((k w : ℝ) / (cA : ℝ)))).sum :=
      List.sum_le_sum (fun w hw => hterm w (hk w (List.mem_cons_of_mem _ hw)))
    have h2 : Real.log ((cL : ℝ) / (N : ℝ)) < 0 :=
      Real.log_neg (div_pos hLpos hNpos) ((div_lt_one hNpos).2 hLN)
    have h3 : Real.log ((cA : ℝ) / (N : ℝ)) + Real.log ((k w0 : ℝ) / (cA : ℝ))
        = Real.log ((k w0 : ℝ) / (N : ℝ)) := by
      rw [← Real.log_mul (ne_of_gt (div_pos hApos hNpos)) (ne_of_gt (div_pos hk0 hApos))]
      congr 1
      field_simp
      ring
    simp only [List.map_cons, List.sum_cons]
    linarith

theorem mem_sorted_unique (post : List Str) (w : Str) : w ∈ sorted_unique post ↔ w ∈ post := by
  unfold sorted_unique
  rw [mem_foldl_setInsert]
  simp

theorem sorted_sorted_unique (post : List Str) :
    (sorted_unique post).Sorted (fun x y => x < y) :=
  sorted_foldl_setInsert _ _ List.sorted_nil

/-- On a corpus where every word of `U` occurs under label `a` only, a label `l ≠ a` scores
strictly less than `a` on `U`. -/
theorem separable_score_lt (rs : List Record) (t v : Nat) (a l : Str) (U : List Str)
    (hU : U ≠ []) (hla : l ≠ a) (hl : 0 < count_label rs l)
    (ha : ∀ w ∈ U, (∃ r ∈ rs, r.tag = a ∧ w ∈ unique_words r.content) ∧
      ∀ r ∈ rs, w ∈ unique_words r.content → r.tag = a) :
    Real.log ((count_label rs l : ℝ) / (rs.length : ℝ))
        + (U.map (score_term (fun x y => Real.log ((x : ℝ) / (y : ℝ)))
            (train (fresh t v) rs) l)).sum
      < Real.log ((count_label rs a : ℝ) / (rs.length : ℝ))
        + (U.map (score_term (fun x y => Real.log ((x : ℝ) / (y : ℝ)))
            (train (fresh t v) rs) a)).sum := by
  have hk : ∀ w ∈ U, 0 < count_word rs w := by
    intro w hw
    obtain ⟨⟨r, hr, _, hrw⟩, _⟩ := ha w hw
    exact (count_word_pos rs w).2 ⟨r, hr, hrw⟩
  have hcA : 0 < count_label rs a := by
    cases U with
    | nil => exact absurd rfl hU
    | cons w0 U' =>
      obtain ⟨⟨r, hr, hra, _⟩, _⟩ := ha w0 (List.mem_cons_self _ _)
      exact (count_label_pos rs a).2 ⟨r, hr, hra⟩
  have hL : U.map (score_term (fun x y => Real.log ((x : ℝ) / (y : ℝ)))
      (train (fresh t v) rs) l)
      = U.map (fun w => Real.log ((count_word rs w : ℝ) / (rs.length : ℝ))) := by
    apply List.map_congr_left
    intro w hw
    rw [score_term_train, count_label_word_eq_zero rs a l w hla (ha w hw).2,
      if_neg (lt_irrefl 0), if_pos (hk w hw)]
  have hA : U.map (score_term (fun x y => Real.log ((x : ℝ) / (y : ℝ)))
      (train (fresh t v) rs) a)
      = U.map (fun w => Real.log ((count_word rs w : ℝ) / (count_label rs a : ℝ))) := by
    apply List.map_congr_left
    intro w hw
    have h1 := count_word_eq_count_label_word rs a w (ha w hw).2
    have h2 := hk w hw
    rw [score_term_train, ← h1, if_pos h2]
  rw [hL, hA]
  exact log_sum_lt rs.length (count_label rs a) (count_label rs l) (count_word rs) U hU hcA hl
    (count_label_add_le rs a l (Ne.symm hla)) hk

/-! ## Claims on the trained model -/

/-- Claim C1. Training a freshly constructed classifier on the rows `rs` gives
`total_posts = rs.length`; `labels` holds exactly the tags of `rs` (in ascending order);
`posts_per_label[l]` is the number of rows tagged `l`; `posts_per_word[w]` is the number of
rows whose unique-word set contains `w`; `word_count_per_label[l][w]` is the number of rows
tagged `l` whose unique-word set contains `w`; in each map a key is present exactly when its
count is at least one. On the rows `(spam, "buy now buy")`, `(ham, "meeting now")` the model
is the one of the specification's scenario. -/
theorem train_fresh_model :
    (∀ (rs : List Record) (t v : Nat),
      (train (fresh t v) rs).total_posts = rs.length ∧
      ((train (fresh t v) rs).labels.Sorted (fun x y => x < y) ∧
        ∀ l, l ∈ (train (fresh t v) rs).labels ↔ ∃ r ∈ rs, r.tag = l) ∧
      (∀ l, mapFind l (train (fresh t v) rs).posts_per_label = stored (count_label rs l)) ∧
      (∀ w, mapFind w (train (fresh t v) rs).posts_per_word = stored (count_word rs w)) ∧
      (∀ l w, wcGet (train (fresh t v) rs).word_count_per_label l w
          = stored (count_label_word rs l w))) ∧
    (∀ t v : Nat,
      train (fresh t v)
          [⟨"spam".toList, "buy now buy".toList⟩, ⟨"ham".toList, "meeting now".toList⟩]
        = { total_posts := 2
            vocab := 3
            posts_per_word := [("buy".toList, 1), ("meeting".toList, 1), ("now".toList, 2)]
            all_words := ["buy".toList, "meeting".toList, "now".toList]
            labels := ["ham".toList, "spam".toList]
            posts_per_label := [("ham".toList, 1), ("spam".toList, 1)]
            word_count_per_label :=
              [("ham".toList, [("meeting".toList, 1), ("now".toList, 1)]),
               ("spam".toList, [("buy".toList, 1), ("now".toList, 1)])] }) := by
  refine ⟨fun rs t v => ⟨total_posts_train rs t v,
    ⟨sorted_labels_train rs t v, mem_labels_train rs t v⟩, posts_per_label_train rs t v,
    posts_per_word_train rs t v, word_count_per_label_train rs t v⟩, ?_⟩
  intro t v
  rw [train_fresh_irrel]
  decide

/-- Claim C4. In a model trained from a fresh classifier, `posts_per_word[w]` is the sum over
the labels `l` of `word_count_per_label[l][w]`, an absent key counting as `0`. -/
theorem posts_per_word_eq_sum (rs : List Record) (t v : Nat) (w : Str) :
    (mapFind w (train (fresh t v) rs).posts_per_word).getD 0
      = ((train (fresh t v) rs).labels.map
          (fun l => (wcGet (train (fresh t v) rs).word_count_per_label l w).getD 0)).sum := by
  simp only [posts_per_word_train, word_count_per_label_train, getD_stored]
  refine (sum_count_label_word w _ (sorted_labels_train rs t v).nodup rs ?_).symm
  intro r hr
  exact (mem_labels_train rs t v r.tag).2 ⟨r, hr, rfl⟩

/-- Claim C5. In a model trained from a fresh classifier, for every label `l` and word `w`,
`word_count_per_label[l][w] ≤ posts_per_label[l] ≤ total_posts` (absent keys counting as
`0`). -/
theorem word_count_le_posts_per_label_le_total (rs : List Record) (t v : Nat) (l w : Str) :
    (wcGet (train (fresh t v) rs).word_count_per_label l w).getD 0
        ≤ (mapFind l (train (fresh t v) rs).posts_per_label).getD 0 ∧
      (mapFind l (train (fresh t v) rs).posts_per_label).getD 0
        ≤ (train (fresh t v) rs).total_posts := by
  simp only [posts_per_label_train, word_count_per_label_train, getD_stored,
    total_posts_train]
  exact ⟨count_label_word_le rs l w, count_label_le rs l⟩

/-- Claim C6. In a model trained from a fresh classifier, `all_words` holds exactly the words
of the unique-word sets of the rows (each once, in ascending order, and `find` agrees with
membership), `vocab` is the number of elements of `all_words`, and every key of
`posts_per_word` or of an inner map `word_count_per_label[l]` is an element of `all_words`. -/
theorem all_words_vocab (rs : List Record) (t v : Nat) :
    ((train (fresh t v) rs).all_words.Sorted (fun x y => x < y) ∧
      ∀ w, (w ∈ (train (fresh t v) rs).all_words ↔ ∃ r ∈ rs, w ∈ unique_words r.content) ∧
        (setContains w (train (fresh t v) rs).all_words = true
          ↔ w ∈ (train (fresh t v) rs).all_words)) ∧
    (train (fresh t v) rs).vocab = (train (fresh t v) rs).all_words.length ∧
    (∀ w, (mapFind w (train (fresh t v) rs).posts_per_word).isSome = true →
      w ∈ (train (fresh t v) rs).all_words) ∧
    (∀ l w, (wcGet (train (fresh t v) rs).word_count_per_label l w).isSome = true →
      w ∈ (train (fresh t v) rs).all_words) := by
  refine ⟨⟨sorted_all_words_train rs t v, fun w => ⟨mem_all_words_train rs t v w,
    setContains_iff_mem _ _ (sorted_all_words_train rs t v)⟩⟩, rfl, ?_, ?_⟩
  · intro w h
    rw [posts_per_word_train] at h
    rw [mem_all_words_train, ← count_word_pos]
    unfold stored at h
    by_cases h0 : count_word rs w = 0
    · simp [h0] at h
    · omega
  · intro l w h
    rw [word_count_per_label_train] at h
    rw [mem_all_words_train, ← count_word_pos]
    have h1 := count_label_word_le_word rs l w
    unfold stored at h
    by_cases h0 : count_label_word rs l w = 0
    · simp [h0] at h
    · omega

/-- Claim C9. Training is insensitive to the order of the rows: a permutation of the rows
gives the same model, field by field. -/
theorem train_perm (rs rs' : List Record) (t v : Nat) (h : rs.Perm rs') :
    train (fresh t v) rs = train (fresh t v) rs' := by
  have e := foldl_train_record_perm rs rs' h { fresh t v with total_posts := 0, vocab := 0 }
  simp only [train, e]

theorem train_perm_witness :
    List.Perm [(⟨"a".toList, "x y".toList⟩ : Record), ⟨"b".toList, "y z".toList⟩]
        [⟨"b".toList, "y z".toList⟩, ⟨"a".toList, "x y".toList⟩] ∧
      train (fresh 0 0) [(⟨"a".toList, "x y".toList⟩ : Record), ⟨"b".toList, "y z".toList⟩]
        = train (fresh 0 0) [⟨"b".toList, "y z".toList⟩, ⟨"a".toList, "x y".toList⟩] :=
  ⟨List.Perm.swap _ _ _, train_perm _ _ 0 0 (List.Perm.swap _ _ _)⟩

/-! ## Claims on the tokenizer -/

/-- Claim C7, as stated, fails on `"a\rb"`: with whitespace taken as space, tab and newline
only, the single maximal run is `"a\rb"` itself, while `unique_words` splits at the carriage
return and gives `{"a", "b"}`. -/
theorem unique_words_splits_at_carriage_return :
    unique_words "a\rb".toList = ["a".toList, "b".toList] ∧
      MaximalRun spec_whitespace "a\rb".toList "a\rb".toList ∧
      ¬ MaximalRun spec_whitespace "a\rb".toList "a".toList := by
  have hall : ∀ c ∈ "a\rb".toList, spec_whitespace c = false := by decide
  refine ⟨by decide, ?_, ?_⟩
  · exact (maximalRun_of_no_ws spec_whitespace _ _ hall).2 ⟨by decide, rfl⟩
  · intro h
    exact absurd ((maximalRun_of_no_ws spec_whitespace _ _ hall).1 h).2 (by decide)

/-- Claim C7, amended. For every content string `s`, `unique_words s` is exactly the set of
maximal runs of non-whitespace characters of `s`, where whitespace is what `operator>>`
skips in the default locale: space, `\t`, `\n`, `\v`, `\f` and `\r`. The result lists each
run once, in ascending order; no token is empty or contains a whitespace character; tokens
are compared by exact equality; an empty or all-whitespace `s` gives the empty set. -/
theorem unique_words_maximal_runs (s : Str) :
    (unique_words s).Sorted (fun x y => x < y) ∧
      (∀ w, w ∈ unique_words s ↔ MaximalRun isspace s w) ∧
      (∀ w ∈ unique_words s, w ≠ [] ∧ ∀ c ∈ w, isspace c = false) ∧
      ((∀ c ∈ s, isspace c = true) → unique_words s = []) := by
  refine ⟨sorted_unique_words s, mem_unique_words s, ?_, ?_⟩
  · intro w hw
    have h := (mem_unique_words s w).1 hw
    exact ⟨h.1, h.2.1⟩
  · intro hs
    apply List.eq_nil_iff_forall_not_mem.2
    intro w hw
    have h := (mem_unique_words s w).1 hw
    have h2 := (maximalRun_append_ws isspace s [] hs w).1 (by simpa using h)
    exact not_maximalRun_nil isspace w h2

/-- Claim C8. Training is insensitive to repetition of a word inside one document: if two
rows carry the same tag and contents with the same set of tokens, replacing one by the other
anywhere in the corpus gives the identical model; and processing a row raises
`posts_per_word[w]` and `word_count_per_label[tag][w]` by exactly `1` for each distinct
token `w` of its content (and leaves the other counts as they are). -/
theorem train_ignores_repetition (front back : List Record) (r r' : Record) (t v : Nat)
    (htag : r.tag = r'.tag)
    (hset : ∀ w, MaximalRun isspace r.content w ↔ MaximalRun isspace r'.content w) :
    train (fresh t v) (front ++ r :: back) = train (fresh t v) (front ++ r' :: back) ∧
      (∀ (c : Classifier) (w : Str), MaximalRun isspace r.content w →
        (mapFind w (train_record c r).posts_per_word).getD 0
          = (mapFind w c.posts_per_word).getD 0 + 1 ∧
        (wcGet (train_record c r).word_count_per_label r.tag w).getD 0
          = (wcGet c.word_count_per_label r.tag w).getD 0 + 1) ∧
      (∀ (c : Classifier) (w : Str), ¬ MaximalRun isspace r.content w →
        mapFind w (train_record c r).posts_per_word = mapFind w c.posts_per_word ∧
        ∀ l, wcGet (train_record c r).word_count_per_label l w
          = wcGet c.word_count_per_label l w) := by
  refine ⟨?_, ?_, ?_⟩
  · have hu : unique_words r.content = unique_words r'.content :=
      unique_words_eq_of_mem_iff _ _ (fun w => by rw [mem_unique_words, mem_unique_words, hset])
    have hr : ∀ c, train_record c r = train_record c r' := by
      intro c
      simp only [train_record_eq, hu, htag]
    simp only [train, List.foldl_append, List.foldl_cons, hr]
  · intro c w hw
    have hm := (mem_unique_words r.content w).2 hw
    rw [posts_per_word_train_record, word_count_per_label_train_record, getD_bump,
      getD_bump]
    simp [hm]
  · intro c w hw
    have hm : w ∉ unique_words r.content := fun h => hw ((mem_unique_words r.content w).1 h)
    refine ⟨?_, fun l => ?_⟩
    · rw [posts_per_word_train_record]; simp [hm, bump]
    · rw [word_count_per_label_train_record]; simp [hm, bump]

theorem train_ignores_repetition_witness :
    (⟨"x".toList, "a a a b".toList⟩ : Record).tag = (⟨"x".toList, "a b".toList⟩ : Record).tag ∧
      train (fresh 0 0) ([] ++ ⟨"x".toList, "a a a b".toList⟩ :: [])
        = train (fresh 0 0) ([] ++ ⟨"x".toList, "a b".toList⟩ :: []) :=
  ⟨rfl, (train_ignores_repetition [] [] ⟨"x".toList, "a a a b".toList⟩
    ⟨"x".toList, "a b".toList⟩ 0 0 rfl (fun w => by
      rw [← mem_unique_words, ← mem_unique_words]
      have h : unique_words "a a a b".toList = unique_words "a b".toList := by decide
      rw [h])).1⟩

/-! ## Claims on scoring and prediction -/

/-- Claim C2. Let `m` be the model trained from a fresh classifier and `l` one of its labels.
Whenever `calculate_log_prob(post, l)` returns, the result is, with `ln` over the reals,
`ln(posts_per_label[l] / total_posts)` plus, for each element `w` of `post`,
`ln(word_count_per_label[l][w] / posts_per_label[l])` if `w` is a key of
`word_count_per_label[l]`, otherwise `ln(posts_per_word[w] / total_posts)` if `w` is in
`all_words`, otherwise `ln(1 / total_posts)`. The call does return exactly when `post` is
empty or some row tagged `l` has a non-empty word set. -/
theorem calculate_log_prob_formula (rs : List Record) (t v : Nat) (m : Classifier)
    (hm : m = train (fresh t v) rs) (l : Str) (hl : l ∈ m.labels) (post : List Str) :
    (∀ x : ℝ,
      calculate_log_prob (fun a b => Real.log ((a : ℝ) / (b : ℝ))) m post l = some x →
      x = Real.log (((mapFind l m.posts_per_label).getD 0 : ℝ) / (m.total_posts : ℝ))
          + (post.map (fun w =>
              match wcGet m.word_count_per_label l w with
              | some n => Real.log ((n : ℝ) / ((mapFind l m.posts_per_label).getD 0 : ℝ))
              | none =>
                if w ∈ m.all_words then
                  Real.log (((mapFind w m.posts_per_word).getD 0 : ℝ) / (m.total_posts : ℝ))
                else Real.log (1 / (m.total_posts : ℝ)))).sum) ∧
    ((∃ x : ℝ, calculate_log_prob (fun a b => Real.log ((a : ℝ) / (b : ℝ))) m post l = some x)
      ↔ post = [] ∨ ∃ r ∈ rs, r.tag = l ∧ unique_words r.content ≠ []) := by
  subst hm
  have hterm : ∀ w, score_term (fun a b => Real.log ((a : ℝ) / (b : ℝ)))
      (train (fresh t v) rs) l w
      = (match wcGet (train (fresh t v) rs).word_count_per_label l w with
        | some n => Real.log ((n : ℝ) /
            ((mapFind l (train (fresh t v) rs).posts_per_label).getD 0 : ℝ))
        | none =>
          if w ∈ (train (fresh t v) rs).all_words then
            Real.log (((mapFind w (train (fresh t v) rs).posts_per_word).getD 0 : ℝ)
              / ((train (fresh t v) rs).total_posts : ℝ))
          else Real.log (1 / ((train (fresh t v) rs).total_posts : ℝ))) := by
    intro w
    unfold score_term
    cases wcGet (train (fresh t v) rs).word_count_per_label l w <;> simp
  rw [calculate_log_prob_train]
  constructor
  · intro x hx
    by_cases hc : l ∈ (train (fresh t v) rs).labels ∧ (post = [] ∨
        (mapFind l (train (fresh t v) rs).word_count_per_label).isSome = true)
    · rw [if_pos hc] at hx
      have hx2 := (Option.some.inj hx).symm
      rw [hx2, posts_per_label_train, getD_stored, total_posts_train]
      congr 2
      apply List.map_congr_left
      intro w _
      rw [hterm, posts_per_label_train, getD_stored, total_posts_train]
    · rw [if_neg hc] at hx
      exact absurd hx (by simp)
  · rw [← isSome_word_count_per_label_train rs t v l]
    by_cases hc : post = [] ∨
        (mapFind l (train (fresh t v) rs).word_count_per_label).isSome = true
    · simp [hl, hc]
    · simp [hl, hc]

theorem calculate_log_prob_formula_witness :
    "spam".toList ∈ (train (fresh 0 0)
        [⟨"spam".toList, "buy now buy".toList⟩, ⟨"ham".toList, "meeting now".toList⟩]).labels ∧
      ∃ x : ℝ, calculate_log_prob (fun a b => Real.log ((a : ℝ) / (b : ℝ)))
        (train (fresh 0 0)
          [⟨"spam".toList, "buy now buy".toList⟩, ⟨"ham".toList, "meeting now".toList⟩])
        ["buy".toList, "meeting".toList, "zzz".toList] "spam".toList = some x :=
  ⟨by decide, (calculate_log_prob_formula
    [⟨"spam".toList, "buy now buy".toList⟩, ⟨"ham".toList, "meeting now".toList⟩] 0 0 _ rfl
    "spam".toList (by decide) ["buy".toList, "meeting".toList, "zzz".toList]).2.2
    (Or.inr (by decide))⟩

/-- Claim C3. On a model trained from a fresh classifier with a non-empty label set, if
scoring the de-duplicated post succeeds for every label, then `predict(post)` returns a label
`L` of the model whose score is greater than or equal to the score of every label, and `L`
is the lexicographically smallest of the labels that attain this maximal score. The scores
may live in any linearly ordered type (the reals in particular). -/
theorem predict_argmax {R : Type} [LinearOrder R] [Add R] (lg : Nat → Nat → R)
    (rs : List Record) (t v : Nat) (m : Classifier) (hm : m = train (fresh t v) rs)
    (post : List Str) (hne : m.labels ≠ [])
    (hs : ∀ l ∈ m.labels, ∃ x, calculate_log_prob lg m (sorted_unique post) l = some x) :
    ∃ L sL, predict lg m post = some L ∧ L ∈ m.labels ∧
      calculate_log_prob lg m (sorted_unique post) L = some sL ∧
      (∀ l ∈ m.labels, ∀ s,
        calculate_log_prob lg m (sorted_unique post) l = some s → s ≤ sL) ∧
      (∀ l ∈ m.labels, calculate_log_prob lg m (sorted_unique post) l = some sL → L ≤ l) := by
  subst hm
  exact argmax_of_sorted_labels lg _ post hne (sorted_labels_train rs t v) hs

theorem predict_argmax_witness :
    (train (fresh 0 0)
        [⟨"spam".toList, "buy now buy".toList⟩, ⟨"ham".toList, "meeting now".toList⟩]).labels
        ≠ [] ∧
      ∃ L, predict (fun a b => Real.log ((a : ℝ) / (b : ℝ)))
          (train (fresh 0 0)
            [⟨"spam".toList, "buy now buy".toList⟩, ⟨"ham".toList, "meeting now".toList⟩])
          ["now".toList, "zzz".toList, "now".toList] = some L ∧
        L ∈ (train (fresh 0 0)
          [⟨"spam".toList, "buy now buy".toList⟩, ⟨"ham".toList, "meeting now".toList⟩]).labels :=
  ⟨by decide, by
    obtain ⟨L, _, h1, h2, _⟩ := predict_argmax (fun a b => Real.log ((a : ℝ) / (b : ℝ)))
      [⟨"spam".toList, "buy now buy".toList⟩, ⟨"ham".toList, "meeting now".toList⟩] 0 0 _ rfl
      ["now".toList, "zzz".toList, "now".toList] (by decide)
      (fun l hl => (calculate_log_prob_isSome_train _ _ 0 0 l _).2
        ⟨hl, Or.inr ((by decide :
          ∀ l ∈ (train (fresh 0 0) [⟨"spam".toList, "buy now buy".toList⟩,
              ⟨"ham".toList, "meeting now".toList⟩]).labels,
            ∃ r ∈ [(⟨"spam".toList, "buy now buy".toList⟩ : Record),
              ⟨"ham".toList, "meeting now".toList⟩],
              r.tag = l ∧ unique_words r.content ≠ []) l hl)⟩)
    exact ⟨L, h1, h2⟩⟩

/-- Claim C10. On a model trained from a fresh classifier in which every label has a row with
a non-empty word set, a non-empty post all of whose words occur in training under label `A`
and under no other label is predicted as `A` (scores over the reals). The hypothesis of at
least two labels is not needed. -/
theorem predict_separable (rs : List Record) (t v : Nat) (m : Classifier)
    (hm : m = train (fresh t v) rs) (A : Str) (post : List Str) (hpost : post ≠ [])
    (hlab : ∀ l ∈ m.labels, ∃ r ∈ rs, r.tag = l ∧ unique_words r.content ≠ [])
    (hA : ∀ w ∈ post, (∃ r ∈ rs, r.tag = A ∧ w ∈ unique_words r.content) ∧
      ∀ r ∈ rs, w ∈ unique_words r.content → r.tag = A) :
    predict (fun a b => Real.log ((a : ℝ) / (b : ℝ))) m post = some A := by
  subst hm
  have hU : sorted_unique post ≠ [] := by
    cases post with
    | nil => exact absurd rfl hpost
    | cons w0 p =>
      intro h
      have := (mem_sorted_unique (w0 :: p) w0).2 (List.mem_cons_self _ _)
      rw [h] at this
      exact absurd this (List.not_mem_nil _)
  have hA' : ∀ w ∈ sorted_unique post,
      (∃ r ∈ rs, r.tag = A ∧ w ∈ unique_words r.content) ∧
        ∀ r ∈ rs, w ∈ unique_words r.content → r.tag = A :=
    fun w hw => hA w ((mem_sorted_unique post w).1 hw)
  have hAl : A ∈ (train (fresh t v) rs).labels := by
    cases post with
    | nil => exact absurd rfl hpost
    | cons w0 p =>
      obtain ⟨⟨r, hr, hra, _⟩, _⟩ := hA w0 (List.mem_cons_self _ _)
      exact (mem_labels_train rs t v A).2 ⟨r, hr, hra⟩
  have hval : ∀ l ∈ (train (fresh t v) rs).labels,
      calculate_log_prob (fun a b => Real.log ((a : ℝ) / (b : ℝ))) (train (fresh t v) rs)
        (sorted_unique post) l
      = some (Real.log ((count_label rs l : ℝ) / (rs.length : ℝ))
          + ((sorted_unique post).map (score_term (fun x y => Real.log ((x : ℝ) / (y : ℝ)))
              (train (fresh t v) rs) l)).sum) := by
    intro l hl
    rw [calculate_log_prob_train, if_pos]
    exact ⟨hl, Or.inr ((isSome_word_count_per_label_train rs t v l).2 (hlab l hl))⟩
  obtain ⟨L, sL, hp, hL, hsL, hmax, _⟩ :=
    argmax_of_sorted_labels (fun a b => Real.log ((a : ℝ) / (b : ℝ)))
      (train (fresh t v) rs) post (List.ne_nil_of_mem hAl)
      (sorted_labels_train rs t v) (fun l hl => ⟨_, hval l hl⟩)
  rw [hp]
  congr 1
  by_contra hne
  have hlt := separable_score_lt rs t v A L (sorted_unique post) hU hne
    ((count_label_pos rs L).2 ((mem_labels_train rs t v L).1 hL)) hA'
  have h1 := hmax A hAl _ (hval A hAl)
  rw [hval L hL] at hsL
  rw [← Option.some.inj hsL] at h1
  exact absurd hlt (not_lt_of_le h1)

theorem predict_separable_witness :
    (["alpha".toList] : List Str) ≠ [] ∧
      predict (fun a b => Real.log ((a : ℝ) / (b : ℝ)))
        (train (fresh 0 0)
          [⟨"pos".toList, "alpha beta".toList⟩, ⟨"neg".toList, "gamma delta".toList⟩])
        ["alpha".toList] = some "pos".toList ∧
      predict (fun a b => Real.log ((a : ℝ) / (b : ℝ)))
        (train (fresh 0 0)
          [⟨"spam".toList, "buy now buy".toList⟩, ⟨"ham".toList, "meeting now".toList⟩])
        (unique_words "buy buy".toList) = some "spam".toList :=
  ⟨by decide,
    predict_separable
      [⟨"pos".toList, "alpha beta".toList⟩, ⟨"neg".toList, "gamma delta".toList⟩] 0 0 _ rfl
      "pos".toList ["alpha".toList] (by decide) (by decide) (by decide),
    predict_separable
      [⟨"spam".toList, "buy now buy".toList⟩, ⟨"ham".toList, "meeting now".toList⟩] 0 0 _ rfl
      "spam".toList (unique_words "buy buy".toList) (by decide) (by decide) (by decide)⟩

/-! ## Invariants of the scoring loop -/

theorem score_term_invariant {R : Type} (lg : Nat → Nat → R) (Q : R → Prop)
    (hlg : ∀ a b : Nat, 0 < a → a ≤ b → Q (lg a b)) (rs : List Record) (t v : Nat)
    (hN : 0 < rs.length) (l w : Str) : Q (score_term lg (train (fresh t v) rs) l w) := by
  rw [score_term_train]
  by_cases h1 : 0 < count_label_word rs l w
  · rw [if_pos h1]
    exact hlg _ _ h1 (count_label_word_le rs l w)
  · rw [if_neg h1]
    by_cases h2 : 0 < count_word rs w
    · rw [if_pos h2]
      exact hlg _ _ h2 (count_word_le rs w)
    · rw [if_neg h2]
      exact hlg 1 _ Nat.one_pos hN

theorem log_prob_loop_invariant {R : Type} [Add R] (lg : Nat → Nat → R) (P Q : R → Prop)
    (hadd : ∀ a b, P a → Q b → P (a + b))
    (hlg : ∀ a b : Nat, 0 < a → a ≤ b → Q (lg a b)) (rs : List Record) (t v : Nat)
    (hN : 0 < rs.length) (l : Str) (post : List Str) (score x : R) (hs : P score)
    (h : log_prob_loop lg (train (fresh t v) rs) l score post = some x) : P x := by
  induction post generalizing score with
  | nil =>
    simp only [log_prob_loop, Option.some.injEq] at h
    rw [← h]; exact hs
  | cons w post ih =>
    unfold log_prob_loop at h
    rw [log_prob_step_train] at h
    by_cases hc : (mapFind l (train (fresh t v) rs).word_count_per_label).isSome = true
    · rw [if_pos hc] at h
      exact ih _ (hadd _ _ hs (score_term_invariant lg Q hlg rs t v hN l w)) h
    · rw [if_neg hc] at h
      exact absurd h (by simp)

/-- A property `P` that holds of the log-prior and is kept when a term with property `Q` is
added holds of every returned score, as soon as `Q` holds of `lg a b` for `0 < a ≤ b`. -/
theorem calculate_log_prob_invariant {R : Type} [Add R] (lg : Nat → Nat → R)
    (P Q : R → Prop) (hadd : ∀ a b, P a → Q b → P (a + b))
    (hlg : ∀ a b : Nat, 0 < a → a ≤ b → Q (lg a b)) (rs : List Record) (t v : Nat)
    (l : Str) (post : List Str) (x : R)
    (hinit : 0 < count_label rs l → P (lg (count_label rs l) rs.length))
    (h : calculate_log_prob lg (train (fresh t v) rs) post l = some x) : P x := by
  unfold calculate_log_prob at h
  rw [posts_per_label_train, total_posts_train] at h
  by_cases h0 : 0 < count_label rs l
  · rw [stored_eq_some_of_pos _ h0] at h
    have hN : 0 < rs.length := lt_of_lt_of_le h0 (count_label_le rs l)
    exact log_prob_loop_invariant lg P Q hadd hlg rs t v hN l post _ x (hinit h0) h
  · rw [(stored_eq_none_iff _).2 (by omega)] at h
    exact absurd h (by simp)

theorem calculate_log_prob_label {R : Type} [Add R] (lg : Nat → Nat → R)
    (rs : List Record) (t v : Nat) (l : Str) (post : List Str) (x : R)
    (h : calculate_log_prob lg (train (fresh t v) rs) post l = some x) :
    0 < count_label rs l := by
  unfold calculate_log_prob at h
  rw [posts_per_label_train] at h
  by_contra h0
  rw [(stored_eq_none_iff _).2 (by omega)] at h
  exact absurd h (by simp)

theorem log_div_nonpos (a b : Nat) (ha : 0 < a) (hab : a ≤ b) :
    Real.log ((a : ℝ) / (b : ℝ)) ≤ 0 := by
  have hb : (0 : ℝ) < b := by exact_mod_cast lt_of_lt_of_le ha hab
  have ha' : (0 : ℝ) < a := by exact_mod_cast ha
  apply Real.log_nonpos (le_of_lt (div_pos ha' hb))
  rw [div_le_one hb]
  exact_mod_cast hab

theorem log_div_neg (a b : Nat) (ha : 0 < a) (hab : a < b) :
    Real.log ((a : ℝ) / (b : ℝ)) < 0 := by
  have hb : (0 : ℝ) < b := by exact_mod_cast lt_trans ha hab
  have ha' : (0 : ℝ) < a := by exact_mod_cast ha
  apply Real.log_neg (div_pos ha' hb)
  rw [div_lt_one hb]
  exact_mod_cast hab

/-! ## Changing the score type -/

theorem log_prob_step_map {R R' : Type} [Add R] [Add R'] (φ : R → R')
    (hadd : ∀ a b, φ (a + b) = φ a + φ b) (lg : Nat → Nat → R) (c : Classifier) (l : Str)
    (s : R) (w : Str) :
    log_prob_step (fun a b => φ (lg a b)) c l (φ s) w
      = (log_prob_step lg c l s w).map φ := by
  unfold log_prob_step
  cases h1 : mapFind l c.word_count_per_label with
  | none => simp
  | some counts =>
    cases h2 : mapFind w counts with
    | some n =>
      cases h3 : mapFind l c.posts_per_label with
      | none => simp [h2]
      | some k => simp [h2, hadd]
    | none =>
      by_cases h : setContains w c.all_words = true
      · cases h3 : mapFind w c.posts_per_word with
        | none => simp [h, h2]
        | some k => simp [h, h2, hadd]
      · simp [h, h2, hadd]

theorem log_prob_loop_map {R R' : Type} [Add R] [Add R'] (φ : R → R')
    (hadd : ∀ a b, φ (a + b) = φ a + φ b) (lg : Nat → Nat → R) (c : Classifier) (l : Str)
    (s : R) (post : List Str) :
    log_prob_loop (fun a b => φ (lg a b)) c l (φ s) post
      = (log_prob_loop lg c l s post).map φ := by
  induction post generalizing s with
  | nil => rfl
  | cons w post ih =>
    unfold log_prob_loop
    rw [log_prob_step_map φ hadd]
    cases log_prob_step lg c l s w with
    | none => rfl
    | some s1 => simp only [Option.map_some']; exact ih s1

/-- Scoring commutes with every map of score types that preserves addition. -/
theorem calculate_log_prob_map {R R' : Type} [Add R] [Add R'] (φ : R → R')
    (hadd : ∀ a b, φ (a + b) = φ a + φ b) (lg : Nat → Nat → R) (c : Classifier)
    (post : List Str) (l : Str) :
    calculate_log_prob (fun a b => φ (lg a b)) c post l
      = (calculate_log_prob lg c post l).map φ := by
  unfold calculate_log_prob
  cases mapFind l c.posts_per_label with
  | none => rfl
  | some n => exact log_prob_loop_map φ hadd lg c l _ post

theorem trace_sum_add (x y : LogTrace) :
    ((x + y).calls.map (fun q => Real.log ((q.1 : ℝ) / (q.2 : ℝ)))).sum
      = (x.calls.map (fun q => Real.log ((q.1 : ℝ) / (q.2 : ℝ)))).sum
        + (y.calls.map (fun q => Real.log ((q.1 : ℝ) / (q.2 : ℝ)))).sum := by
  show (((x.calls ++ y.calls).map _).sum = _)
  rw [List.map_append, List.sum_append]

/-- The real score is the sum of the logarithms of the recorded quotients. -/
theorem calculate_log_prob_trace (c : Classifier) (post : List Str) (l : Str) :
    calculate_log_prob (fun a b => Real.log ((a : ℝ) / (b : ℝ))) c post l
      = (calculate_log_prob trace_log c post l).map
          (fun tr => (tr.calls.map (fun q => Real.log ((q.1 : ℝ) / (q.2 : ℝ)))).sum) := by
  rw [← calculate_log_prob_map _ trace_sum_add trace_log c post l]
  congr 1
  funext a b
  simp [trace_log]

theorem trace_valid_add (x y : LogTrace) (hx : ∀ q ∈ x.calls, 0 < q.1 ∧ q.1 ≤ q.2)
    (hy : ∀ q ∈ y.calls, 0 < q.1 ∧ q.1 ≤ q.2) :
    ∀ q ∈ (x + y).calls, 0 < q.1 ∧ q.1 ≤ q.2 := by
  intro q hq
  have hq' : q ∈ x.calls ++ y.calls := hq
  rcases List.mem_append.1 hq' with h | h
  · exact hx q h
  · exact hy q h

theorem trace_valid_log (a b : Nat) (ha : 0 < a) (hab : a ≤ b) :
    ∀ q ∈ (trace_log a b).calls, 0 < q.1 ∧ q.1 ≤ q.2 := by
  intro q hq
  simp only [trace_log, List.mem_singleton] at hq
  subst hq
  exact ⟨ha, hab⟩

theorem sum_append_cons_le (f : Str → ℝ) (front back : List Str) (w : Str) (hw : f w ≤ 0) :
    ((front ++ w :: back).map f).sum ≤ ((front ++ back).map f).sum := by
  simp only [List.map_append, List.map_cons, List.sum_append, List.sum_cons]
  linarith

theorem stored_ge_one (n k : Nat) (h : stored n = some k) : 1 ≤ k := by
  have := (stored_eq_some_iff n k).1 h
  omega

/-! ## Claims on the sign of the score and on the arguments of `log` -/

/-- Claim C14, as stated, fails on a corpus with a single row `(a, "x")`: the score of the
post `["x"]` for the label `a` is `ln(1/1) + ln(1/1) = 0`, which is not strictly negative. -/
theorem score_zero_on_single_row :
    calculate_log_prob (fun a b => Real.log ((a : ℝ) / (b : ℝ)))
        (train (fresh 0 0) [⟨"a".toList, "x".toList⟩]) ["x".toList] "a".toList = some 0 ∧
      ¬ ((0 : ℝ) < 0) := by
  refine ⟨?_, lt_irrefl 0⟩
  have h : calculate_log_prob (fun a b => Real.log ((a : ℝ) / (b : ℝ)))
      (train (fresh 0 0) [⟨"a".toList, "x".toList⟩]) ["x".toList] "a".toList
      = some (Real.log (((1 : ℕ) : ℝ) / ((1 : ℕ) : ℝ))
          + Real.log (((1 : ℕ) : ℝ) / ((1 : ℕ) : ℝ))) := rfl
  rw [h]
  simp

/-- Claim C14, amended. On a model trained from a fresh classifier, every score returned by
`calculate_log_prob(post, l)` for a label `l` of the model is less than or equal to `0`
(with `ln` over the reals), and it is strictly negative whenever
`posts_per_label[l] < total_posts`, that is, whenever some row carries another label. -/
theorem score_nonpos (rs : List Record) (t v : Nat) (m : Classifier)
    (hm : m = train (fresh t v) rs) (l : Str) (hl : l ∈ m.labels) (post : List Str) (x : ℝ)
    (hx : calculate_log_prob (fun a b => Real.log ((a : ℝ) / (b : ℝ))) m post l = some x) :
    x ≤ 0 ∧ ((mapFind l m.posts_per_label).getD 0 < m.total_posts → x < 0) := by
  subst hm
  constructor
  · exact calculate_log_prob_invariant _ (fun y => y ≤ 0) (fun y => y ≤ 0)
      (fun a b ha hb => add_nonpos ha hb) log_div_nonpos rs t v l post x
      (fun h0 => log_div_nonpos _ _ h0 (count_label_le rs l)) hx
  · intro hlt
    rw [posts_per_label_train, getD_stored, total_posts_train] at hlt
    exact calculate_log_prob_invariant _ (fun y => y < 0) (fun y => y ≤ 0)
      (fun a b ha hb => add_neg_of_neg_of_nonpos ha hb) log_div_nonpos rs t v l post x
      (fun h0 => log_div_neg _ _ h0 hlt) hx

theorem score_nonpos_witness :
    "spam".toList ∈ (train (fresh 0 0)
        [⟨"spam".toList, "buy now buy".toList⟩, ⟨"ham".toList, "meeting now".toList⟩]).labels ∧
      ∃ x : ℝ, calculate_log_prob (fun a b => Real.log ((a : ℝ) / (b : ℝ)))
          (train (fresh 0 0)
            [⟨"spam".toList, "buy now buy".toList⟩, ⟨"ham".toList, "meeting now".toList⟩])
          ["buy".toList] "spam".toList = some x ∧ x < 0 := by
  refine ⟨by decide, ?_⟩
  obtain ⟨x, hx⟩ := (calculate_log_prob_isSome_train
    (fun a b => Real.log ((a : ℝ) / (b : ℝ)))
    [⟨"spam".toList, "buy now buy".toList⟩, ⟨"ham".toList, "meeting now".toList⟩] 0 0
    "spam".toList ["buy".toList]).2 ⟨by decide, Or.inr (by decide)⟩
  exact ⟨x, hx, (score_nonpos _ 0 0 _ rfl "spam".toList (by decide) ["buy".toList] x hx).2
    (by decide)⟩

/-- Claim C19. On a model trained from a fresh classifier, every stored count
(`posts_per_label[k]`, `posts_per_word[k]`, `word_count_per_label[k][w]`) is at least `1`.
Whenever `calculate_log_prob(post, l)` returns a score `x`, `total_posts` is at least `1`,
and the quotients `a / b` passed to `log` during the call (recorded by running the same
function on call records) all satisfy `0 < a ≤ b`, so that `0 < a / b ≤ 1` and neither a
division by zero nor `log 0` occurs; `x` is the sum of the logarithms of these quotients.
Every term is therefore `≤ 0`: adding a word to a document never increases the score. -/
theorem log_arguments_in_unit_interval (rs : List Record) (t v : Nat) (m : Classifier)
    (hm : m = train (fresh t v) rs) (l : Str) (post : List Str) :
    ((∀ k n, mapFind k m.posts_per_label = some n → 1 ≤ n) ∧
      (∀ k n, mapFind k m.posts_per_word = some n → 1 ≤ n) ∧
      (∀ k w n, wcGet m.word_count_per_label k w = some n → 1 ≤ n)) ∧
    (∀ x : ℝ,
      calculate_log_prob (fun a b => Real.log ((a : ℝ) / (b : ℝ))) m post l = some x →
      1 ≤ m.total_posts ∧
      ∃ tr : LogTrace, calculate_log_prob trace_log m post l = some tr ∧
        x = (tr.calls.map (fun q => Real.log ((q.1 : ℝ) / (q.2 : ℝ)))).sum ∧
        ∀ q ∈ tr.calls, 0 < q.1 ∧ q.1 ≤ q.2) ∧
    (∀ (front back : List Str) (w : Str) (x y : ℝ),
      calculate_log_prob (fun a b => Real.log ((a : ℝ) / (b : ℝ))) m (front ++ back) l
        = some x →
      calculate_log_prob (fun a b => Real.log ((a : ℝ) / (b : ℝ))) m (front ++ w :: back) l
        = some y →
      y ≤ x) := by
  subst hm
  refine ⟨⟨?_, ?_, ?_⟩, ?_, ?_⟩
  · intro k n h
    rw [posts_per_label_train] at h
    exact stored_ge_one _ _ h
  · intro k n h
    rw [posts_per_word_train] at h
    exact stored_ge_one _ _ h
  · intro k w n h
    rw [word_count_per_label_train] at h
    exact stored_ge_one _ _ h
  · intro x hx
    have hpos := calculate_log_prob_label _ rs t v l post x hx
    have hN : 1 ≤ rs.length := le_trans hpos (count_label_le rs l)
    refine ⟨by rw [total_posts_train]; exact hN, ?_⟩
    rw [calculate_log_prob_trace] at hx
    cases htr : calculate_log_prob trace_log (train (fresh t v) rs) post l with
    | none =>
      rw [htr] at hx
      exact absurd hx (by simp)
    | some tr =>
      rw [htr] at hx
      refine ⟨tr, rfl, (Option.some.inj hx).symm, ?_⟩
      exact calculate_log_prob_invariant trace_log
        (fun y => ∀ q ∈ y.calls, 0 < q.1 ∧ q.1 ≤ q.2)
        (fun y => ∀ q ∈ y.calls, 0 < q.1 ∧ q.1 ≤ q.2)
        trace_valid_add trace_valid_log rs t v l post tr
        (fun h0 => trace_valid_log _ _ h0 (count_label_le rs l)) htr
  · intro front back w x y hx hy
    have hpos := calculate_log_prob_label _ rs t v l _ x hx
    have hN : 0 < rs.length := lt_of_lt_of_le hpos (count_label_le rs l)
    rw [calculate_log_prob_train] at hx hy
    by_cases h1 : l ∈ (train (fresh t v) rs).labels ∧ (front ++ back = [] ∨
        (mapFind l (train (fresh t v) rs).word_count_per_label).isSome = true)
    · by_cases h2 : l ∈ (train (fresh t v) rs).labels ∧ (front ++ w :: back = [] ∨
          (mapFind l (train (fresh t v) rs).word_count_per_label).isSome = true)
      · rw [if_pos h1] at hx
        rw [if_pos h2] at hy
        rw [← Option.some.inj hx, ← Option.some.inj hy]
        have := sum_append_cons_le
          (score_term (fun a b => Real.log ((a : ℝ) / (b : ℝ))) (train (fresh t v) rs) l)
          front back w
          (score_term_invariant _ (fun y => y ≤ 0) log_div_nonpos rs t v hN l w)
        linarith
      · rw [if_neg h2] at hy
        exact absurd hy (by simp)
    · rw [if_neg h1] at hx
      exact absurd hx (by simp)

theorem log_arguments_in_unit_interval_witness :
    ∃ tr : LogTrace, calculate_log_prob trace_log
        (train (fresh 0 0)
          [⟨"spam".toList, "buy now buy".toList⟩, ⟨"ham".toList, "meeting now".toList⟩])
        ["buy".toList, "meeting".toList, "zzz".toList] "spam".toList = some tr ∧
      ∀ q ∈ tr.calls, 0 < q.1 ∧ q.1 ≤ q.2 := by
  obtain ⟨x, hx⟩ := (calculate_log_prob_isSome_train
    (fun a b => Real.log ((a : ℝ) / (b : ℝ)))
    [⟨"spam".toList, "buy now buy".toList⟩, ⟨"ham".toList, "meeting now".toList⟩] 0 0
    "spam".toList ["buy".toList, "meeting".toList, "zzz".toList]).2
    ⟨by decide, Or.inr (by decide)⟩
  obtain ⟨_, tr, h1, _, h2⟩ := (log_arguments_in_unit_interval _ 0 0 _ rfl "spam".toList
    ["buy".toList, "meeting".toList, "zzz".toList]).2.1 x hx
  exact ⟨tr, h1, h2⟩

/-! ## Claims on the smoothing tiers, on unknown labels and on de-duplication -/

theorem log_floor_le (n cl N : Nat) (hn : 0 < n) (hcl : n ≤ cl) (hN : cl ≤ N) :
    Real.log (1 / (N : ℝ)) ≤ Real.log ((n : ℝ) / (cl : ℝ)) := by
  have hN' : (0 : ℝ) < N := by exact_mod_cast (by omega : 0 < N)
  have hcl' : (0 : ℝ) < cl := by exact_mod_cast (by omega : 0 < cl)
  have hn' : (1 : ℝ) ≤ n := by exact_mod_cast hn
  have hclN : (cl : ℝ) ≤ N := by exact_mod_cast hN
  apply Real.log_le_log (div_pos one_pos hN')
  exact div_le_div₀ (by linarith) hn' hcl' hclN

/-- Claim C13. On a model trained from a fresh classifier, for every label `l` and every word
`w` that is a key of `word_count_per_label[l]`, the floor term `ln(1 / total_posts)` is less
than or equal to the per-label term `ln(word_count_per_label[l][w] / posts_per_label[l])`;
hence replacing a never-seen word `u` of a document by `w` never lowers the score for `l`
(both scores exist). -/
theorem floor_le_seen_term (rs : List Record) (t v : Nat) (m : Classifier)
    (hm : m = train (fresh t v) rs) (l w : Str) (n : Nat)
    (hkey : wcGet m.word_count_per_label l w = some n) :
    Real.log (1 / (m.total_posts : ℝ))
        ≤ Real.log ((n : ℝ) / ((mapFind l m.posts_per_label).getD 0 : ℝ)) ∧
      ∀ (front back : List Str) (u : Str), u ∉ m.all_words →
        ∃ x y : ℝ,
          calculate_log_prob (fun a b => Real.log ((a : ℝ) / (b : ℝ))) m
            (front ++ u :: back) l = some x ∧
          calculate_log_prob (fun a b => Real.log ((a : ℝ) / (b : ℝ))) m
            (front ++ w :: back) l = some y ∧
          x ≤ y := by
  subst hm
  rw [word_count_per_label_train] at hkey
  obtain ⟨hn, hpos⟩ := (stored_eq_some_iff _ _).1 hkey
  have hcl := count_label_word_le rs l w
  have hN := count_label_le rs l
  have hfloor := log_floor_le (count_label_word rs l w) (count_label rs l) rs.length
    hpos hcl hN
  constructor
  · rw [total_posts_train, posts_per_label_train, getD_stored, ← hn]
    exact hfloor
  · intro front back u hu
    have hl : l ∈ (train (fresh t v) rs).labels :=
      (mem_labels_train rs t v l).2
        ((count_label_pos rs l).1 (lt_of_lt_of_le hpos hcl))
    have hsome : (mapFind l (train (fresh t v) rs).word_count_per_label).isSome = true := by
      rw [isSome_word_count_per_label_train]
      obtain ⟨r, hr, hrl, hrw⟩ := (count_label_word_pos rs l w).1 hpos
      exact ⟨r, hr, hrl, List.ne_nil_of_mem hrw⟩
    have hu0 : ¬ 0 < count_word rs u := by
      intro h
      exact hu ((mem_all_words_train rs t v u).2 ((count_word_pos rs u).1 h))
    have hu1 : ¬ 0 < count_label_word rs l u := by
      intro h
      exact hu0 (lt_of_lt_of_le h (count_label_word_le_word rs l u))
    have hx := calculate_log_prob_train (fun a b => Real.log ((a : ℝ) / (b : ℝ))) rs t v l
      (front ++ u :: back)
    have hy := calculate_log_prob_train (fun a b => Real.log ((a : ℝ) / (b : ℝ))) rs t v l
      (front ++ w :: back)
    rw [if_pos ⟨hl, Or.inr hsome⟩] at hx hy
    refine ⟨_, _, hx, hy, ?_⟩
    · simp only [List.map_append, List.map_cons, List.sum_append, List.sum_cons,
        score_term_train _ rs t v l u, score_term_train _ rs t v l w, if_neg hu0, if_neg hu1,
        if_pos hpos]
      have h1 : Real.log (((1 : ℕ) : ℝ) / (rs.length : ℝ))
          ≤ Real.log ((count_label_word rs l w : ℝ) / (count_label rs l : ℝ)) := by
        simpa using hfloor
      linarith

theorem floor_le_seen_term_witness :
    wcGet (train (fresh 0 0)
        [⟨"spam".toList, "buy now buy".toList⟩, ⟨"ham".toList, "meeting now".toList⟩]
      ).word_count_per_label "spam".toList "buy".toList = some 1 ∧
      Real.log (1 / ((train (fresh 0 0)
          [⟨"spam".toList, "buy now buy".toList⟩, ⟨"ham".toList, "meeting now".toList⟩]
        ).total_posts : ℝ))
        ≤ Real.log (((1 : ℕ) : ℝ) / ((mapFind "spam".toList (train (fresh 0 0)
          [⟨"spam".toList, "buy now buy".toList⟩, ⟨"ham".toList, "meeting now".toList⟩]
        ).posts_per_label).getD 0 : ℝ)) :=
  ⟨by decide, (floor_le_seen_term
    [⟨"spam".toList, "buy now buy".toList⟩, ⟨"ham".toList, "meeting now".toList⟩] 0 0 _ rfl
    "spam".toList "buy".toList 1 (by decide)).1⟩

/-- Claim C16. On a model trained from a fresh classifier, `calculate_log_prob(post, l)` for a
label `l` that is not in `labels` fails: `posts_per_label.at(l)` throws and no score is
returned, whatever the post and the score type. -/
theorem unknown_label_fails {R : Type} [Add R] (lg : Nat → Nat → R) (rs : List Record)
    (t v : Nat) (m : Classifier) (hm : m = train (fresh t v) rs) (post : List Str) (l : Str)
    (hl : l ∉ m.labels) : calculate_log_prob lg m post l = none := by
  subst hm
  cases h : calculate_log_prob lg (train (fresh t v) rs) post l with
  | none => rfl
  | some x =>
    have hpos := calculate_log_prob_label lg rs t v l post x h
    exact absurd ((mem_labels_train rs t v l).2 ((count_label_pos rs l).1 hpos)) hl

theorem unknown_label_fails_witness :
    "eggs".toList ∉ (train (fresh 0 0)
        [⟨"spam".toList, "buy now buy".toList⟩, ⟨"ham".toList, "meeting now".toList⟩]).labels ∧
      calculate_log_prob (fun a b => Real.log ((a : ℝ) / (b : ℝ)))
        (train (fresh 0 0)
          [⟨"spam".toList, "buy now buy".toList⟩, ⟨"ham".toList, "meeting now".toList⟩])
        ["buy".toList] "eggs".toList = none :=
  ⟨by decide, unknown_label_fails _ _ 0 0 _ rfl ["buy".toList] "eggs".toList (by decide)⟩

theorem sorted_unique_eq_of_mem_iff (post post' : List Str)
    (h : ∀ w, w ∈ post ↔ w ∈ post') : sorted_unique post = sorted_unique post' :=
  List.eq_of_perm_of_sorted
    ((List.perm_ext_iff_of_nodup (sorted_sorted_unique post).nodup
      (sorted_sorted_unique post').nodup).2
      (fun w => by rw [mem_sorted_unique, mem_sorted_unique, h]))
    (sorted_sorted_unique post) (sorted_sorted_unique post')

/-- Claim C12. `predict` depends only on the set of words of its argument: posts with the
same elements (in any order, with any multiplicities) get the same prediction. The list that
`predict` passes to `calculate_log_prob` is `sorted_unique post`: it has the elements of
`post`, in strictly ascending order, hence each once; so on a trained model a returned score
is the log-prior plus exactly one term for each distinct word of the post. -/
theorem predict_depends_on_word_set {R : Type} [LinearOrder R] [AddCommMonoid R]
    (lg : Nat → Nat → R) (rs : List Record) (t v : Nat) (m : Classifier)
    (hm : m = train (fresh t v) rs) (post post' : List Str)
    (hset : ∀ w, w ∈ post ↔ w ∈ post') :
    predict lg m post = predict lg m post' ∧
      predict lg m post = predict_loop lg m (sorted_unique post) m.labels true none [] ∧
      (sorted_unique post).Sorted (fun x y => x < y) ∧
      (sorted_unique post).Nodup ∧
      (∀ w, w ∈ sorted_unique post ↔ w ∈ post) ∧
      ∀ l x, calculate_log_prob lg m (sorted_unique post) l = some x →
        x = lg ((mapFind l m.posts_per_label).getD 0) m.total_posts
          + ((sorted_unique post).map (score_term lg m l)).sum := by
  subst hm
  refine ⟨?_, rfl, sorted_sorted_unique post, (sorted_sorted_unique post).nodup,
    mem_sorted_unique post, ?_⟩
  · unfold predict
    rw [sorted_unique_eq_of_mem_iff post post' hset]
  · intro l x hx
    rw [calculate_log_prob_train] at hx
    by_cases hc : l ∈ (train (fresh t v) rs).labels ∧ (sorted_unique post = [] ∨
        (mapFind l (train (fresh t v) rs).word_count_per_label).isSome = true)
    · rw [if_pos hc] at hx
      rw [← Option.some.inj hx, posts_per_label_train, getD_stored, total_posts_train]
    · rw [if_neg hc] at hx
      exact absurd hx (by simp)

theorem predict_depends_on_word_set_witness :
    (∀ w, w ∈ ["now".toList, "buy".toList, "now".toList]
        ↔ w ∈ ["buy".toList, "buy".toList, "now".toList]) ∧
      predict (fun a b => Real.log ((a : ℝ) / (b : ℝ)))
          (train (fresh 0 0)
            [⟨"spam".toList, "buy now buy".toList⟩, ⟨"ham".toList, "meeting now".toList⟩])
          ["now".toList, "buy".toList, "now".toList]
        = predict (fun a b => Real.log ((a : ℝ) / (b : ℝ)))
          (train (fresh 0 0)
            [⟨"spam".toList, "buy now buy".toList⟩, ⟨"ham".toList, "meeting now".toList⟩])
          ["buy".toList, "buy".toList, "now".toList] :=
  ⟨fun w => by simp only [List.mem_cons, List.mem_singleton]; tauto,
    (predict_depends_on_word_set (fun a b => Real.log ((a : ℝ) / (b : ℝ)))
      [⟨"spam".toList, "buy now buy".toList⟩, ⟨"ham".toList, "meeting now".toList⟩] 0 0 _ rfl
      ["now".toList, "buy".toList, "now".toList] ["buy".toList, "buy".toList, "now".toList]
      (fun w => by simp only [List.mem_cons, List.mem_singleton]; tauto)).1⟩

/-! ## Claims on degenerate models and on repeated training -/

theorem train_record_fields (c : Classifier) (a b : Nat) (r : Record) :
    train_record { c with total_posts := a, vocab := b } r
      = { train_record c r with total_posts := a + 1, vocab := b } := by
  simp only [train_record_eq]

theorem foldl_train_record_fields (rs : List Record) (c : Classifier) (a b : Nat) :
    rs.foldl train_record { c with total_posts := a, vocab := b }
      = { rs.foldl train_record c with total_posts := a + rs.length, vocab := b } := by
  induction rs generalizing c a with
  | nil => rfl
  | cons r rs ih =>
    rw [List.foldl_cons, List.foldl_cons, train_record_fields, ih]
    simp only [List.length_cons, Classifier.mk.injEq, and_true, true_and]
    omega

theorem train_train (rs1 rs2 : List Record) (c : Classifier) :
    train (train c rs1) rs2
      = { train c (rs1 ++ rs2) with total_posts := rs2.length } := by
  have h := foldl_train_record_fields rs2
    (rs1.foldl train_record { c with total_posts := 0, vocab := 0 }) 0 0
  have e : train (train c rs1) rs2
      = { (rs2.foldl train_record
            { (rs1.foldl train_record { c with total_posts := 0, vocab := 0 }) with
              total_posts := 0, vocab := 0 }) with
          vocab := (rs2.foldl train_record
            { (rs1.foldl train_record { c with total_posts := 0, vocab := 0 }) with
              total_posts := 0, vocab := 0 }).all_words.length } := rfl
  rw [e, h]
  simp only [train, List.foldl_append, Nat.zero_add]

/-- Claim C20. `train` resets only `total_posts` and `vocab`: after `train(rs1)` and then
`train(rs2)` on the same classifier, `total_posts` is the length of `rs2`, while `labels`,
`all_words`, `posts_per_label`, `posts_per_word` and `word_count_per_label` (and so `vocab`,
recomputed as the size of `all_words`) are those of a fresh training on `rs1 ++ rs2`. After
training twice on one row tagged `a`, `posts_per_label[a] = 2 > 1 = total_posts`. -/
theorem train_twice_accumulates :
    (∀ (rs1 rs2 : List Record) (t v : Nat),
      (train (train (fresh t v) rs1) rs2).total_posts = rs2.length ∧
      (train (train (fresh t v) rs1) rs2).labels = (train (fresh t v) (rs1 ++ rs2)).labels ∧
      (train (train (fresh t v) rs1) rs2).all_words
        = (train (fresh t v) (rs1 ++ rs2)).all_words ∧
      (train (train (fresh t v) rs1) rs2).posts_per_label
        = (train (fresh t v) (rs1 ++ rs2)).posts_per_label ∧
      (train (train (fresh t v) rs1) rs2).posts_per_word
        = (train (fresh t v) (rs1 ++ rs2)).posts_per_word ∧
      (train (train (fresh t v) rs1) rs2).word_count_per_label
        = (train (fresh t v) (rs1 ++ rs2)).word_count_per_label ∧
      (train (train (fresh t v) rs1) rs2).vocab
        = (train (train (fresh t v) rs1) rs2).all_words.length) ∧
    (mapFind "a".toList
        (train (train (fresh 0 0) [⟨"a".toList, "x".toList⟩])
          [⟨"a".toList, "y".toList⟩]).posts_per_label = some 2 ∧
      (train (train (fresh 0 0) [⟨"a".toList, "x".toList⟩])
          [⟨"a".toList, "y".toList⟩]).total_posts = 1) := by
  refine ⟨fun rs1 rs2 t v => ?_, by decide, by decide⟩
  rw [train_train]
  exact ⟨rfl, rfl, rfl, rfl, rfl, rfl, rfl⟩

/-- Claim C18, as stated, fails: `train` on an empty sequence of rows raises nothing and
returns the model with `total_posts = 0` and empty containers. -/
theorem train_empty_returns_model :
    (train (fresh 3 4) []).total_posts = 0 ∧ train (fresh 3 4) [] = fresh 0 0 := by
  decide

/-- Claim C18, amended. `train` applied to an empty sequence of rows is not rejected or
flagged: it returns the classifier it was called on with `total_posts` set to `0` and
`vocab` set to the size of `all_words`; on a fresh classifier this is the model with
`total_posts = 0`, `vocab = 0` and empty containers. -/
theorem train_empty (c : Classifier) (t v : Nat) :
    train c [] = { c with total_posts := 0, vocab := c.all_words.length } ∧
      train (fresh t v) [] = fresh 0 0 :=
  ⟨rfl, rfl⟩

/-- Claim C17, as stated, fails: on the model trained on no row (empty label set),
`predict` raises nothing and returns the empty string. -/
theorem predict_without_labels_returns :
    (train (fresh 0 0) []).labels = [] ∧
      predict (fun a b => Real.log ((a : ℝ) / (b : ℝ))) (train (fresh 0 0) [])
        ["buy".toList] = some [] :=
  ⟨rfl, rfl⟩

/-- Claim C17, amended. For every model whose label set is empty and every post,
`predict(post)` raises no error: the loop over `labels` is not entered and the
default-constructed `best_label`, the empty string, is returned. -/
theorem predict_empty_labels {R : Type} [Add R] [LT R]
    [DecidableRel (fun a b : R => a < b)] (lg : Nat → Nat → R) (c : Classifier)
    (post : List Str) (h : c.labels = []) : predict lg c post = some [] := by
  unfold predict
  rw [h]
  rfl

theorem predict_empty_labels_witness :
    (fresh 0 0).labels = [] ∧
      predict (fun a b => Real.log ((a : ℝ) / (b : ℝ))) (fresh 0 0) ["buy".toList]
        = some [] :=
  ⟨rfl, predict_empty_labels _ (fresh 0 0) ["buy".toList] rfl⟩

/-- Claim C15 fails on the code. After training on the rows `(a, "")` and `(b, "x")`, the
label `a` is in `labels` and has `posts_per_label[a] = 1`, but no inner map in
`word_count_per_label`, because that entry is only created inside the loop over the words
of a row. Scoring the post `["x"]` for `a` then throws at `word_count_per_label.at(a)`:
no score is returned, and `predict` on that post fails too. -/
theorem scoring_fails_for_label_without_words :
    "a".toList ∈ (train (fresh 0 0)
        [⟨"a".toList, "".toList⟩, ⟨"b".toList, "x".toList⟩]).labels ∧
      mapFind "a".toList (train (fresh 0 0)
        [⟨"a".toList, "".toList⟩, ⟨"b".toList, "x".toList⟩]).posts_per_label = some 1 ∧
      mapFind "a".toList (train (fresh 0 0)
        [⟨"a".toList, "".toList⟩, ⟨"b".toList, "x".toList⟩]).word_count_per_label = none ∧
      calculate_log_prob (fun a b => Real.log ((a : ℝ) / (b : ℝ)))
        (train (fresh 0 0) [⟨"a".toList, "".toList⟩, ⟨"b".toList, "x".toList⟩])
        ["x".toList] "a".toList = none ∧
      predict (fun a b => Real.log ((a : ℝ) / (b : ℝ)))
        (train (fresh 0 0) [⟨"a".toList, "".toList⟩, ⟨"b".toList, "x".toList⟩])
        ["x".toList] = none :=
  ⟨by decide, by decide, by decide, rfl, rfl⟩

/-! ## Documents made of unseen words -/

theorem sum_score_term_unseen (rs : List Record) (t v : Nat) (l : Str) (U : List Str)
    (hU : ∀ w ∈ U, w ∉ (train (fresh t v) rs).all_words) :
    (U.map (score_term (fun a b => Real.log ((a : ℝ) / (b : ℝ)))
        (train (fresh t v) rs) l)).sum
      = (U.length : ℝ) * Real.log (1 / (rs.length : ℝ)) := by
  induction U with
  | nil => simp
  | cons w U ih =>
    have hw0 : ¬ 0 < count_word rs w := by
      intro h
      exact hU w (List.mem_cons_self _ _)
        ((mem_all_words_train rs t v w).2 ((count_word_pos rs w).1 h))
    have hw1 : ¬ 0 < count_label_word rs l w := by
      intro h
      exact hw0 (lt_of_lt_of_le h (count_label_word_le_word rs l w))
    rw [List.map_cons, List.sum_cons, ih (fun x hx => hU x (List.mem_cons_of_mem _ hx)),
      score_term_train, if_neg hw1, if_neg hw0]
    simp only [List.length_cons, Nat.cast_add, Nat.cast_one]
    ring

theorem log_prior_le_iff (p q N : Nat) (hp : 0 < p) (hq : 0 < q) (hN : 0 < N) (c : ℝ) :
    Real.log ((p : ℝ) / (N : ℝ)) + c ≤ Real.log ((q : ℝ) / (N : ℝ)) + c ↔ p ≤ q := by
  have hp' : (0 : ℝ) < p := by exact_mod_cast hp
  have hq' : (0 : ℝ) < q := by exact_mod_cast hq
  have hN' : (0 : ℝ) < N := by exact_mod_cast hN
  rw [add_le_add_iff_right, Real.log_le_log_iff (div_pos hp' hN') (div_pos hq' hN'),
    div_le_div_iff_of_pos_right hN']
  exact Nat.cast_le

/-- Outside the case of a label without any word, a document of unseen words scores
`ln(posts_per_label[l] / total_posts) + n * ln(1 / total_posts)` for every label, and the
prediction is the smallest label of largest `posts_per_label`. -/
theorem unseen_document_scores (rs : List Record) (t v : Nat) (post : List Str)
    (hdoc : ∀ w ∈ post, w ∉ (train (fresh t v) rs).all_words)
    (hrow : post = [] ∨ ∀ l ∈ (train (fresh t v) rs).labels,
      ∃ r ∈ rs, r.tag = l ∧ unique_words r.content ≠ []) :
    (∀ l ∈ (train (fresh t v) rs).labels,
      calculate_log_prob (fun a b => Real.log ((a : ℝ) / (b : ℝ))) (train (fresh t v) rs)
          (sorted_unique post) l
        = some (Real.log (((mapFind l (train (fresh t v) rs).posts_per_label).getD 0 : ℝ)
              / ((train (fresh t v) rs).total_posts : ℝ))
            + ((sorted_unique post).length : ℝ)
              * Real.log (1 / ((train (fresh t v) rs).total_posts : ℝ)))) ∧
    ((train (fresh t v) rs).labels ≠ [] →
      ∃ L, predict (fun a b => Real.log ((a : ℝ) / (b : ℝ))) (train (fresh t v) rs) post
          = some L ∧ L ∈ (train (fresh t v) rs).labels ∧
        ∀ l ∈ (train (fresh t v) rs).labels,
          (mapFind l (train (fresh t v) rs).posts_per_label).getD 0
              ≤ (mapFind L (train (fresh t v) rs).posts_per_label).getD 0 ∧
            ((mapFind l (train (fresh t v) rs).posts_per_label).getD 0
                = (mapFind L (train (fresh t v) rs).posts_per_label).getD 0 → L ≤ l)) := by
  have hU : ∀ w ∈ sorted_unique post, w ∉ (train (fresh t v) rs).all_words :=
    fun w hw => hdoc w ((mem_sorted_unique post w).1 hw)
  have hcond : ∀ l ∈ (train (fresh t v) rs).labels, sorted_unique post = [] ∨
      (mapFind l (train (fresh t v) rs).word_count_per_label).isSome = true := by
    intro l hl
    rcases hrow with h | h
    · left; rw [h]; rfl
    · right; exact (isSome_word_count_per_label_train rs t v l).2 (h l hl)
  have hval : ∀ l ∈ (train (fresh t v) rs).labels,
      calculate_log_prob (fun a b => Real.log ((a : ℝ) / (b : ℝ))) (train (fresh t v) rs)
          (sorted_unique post) l
        = some (Real.log ((count_label rs l : ℝ) / (rs.length : ℝ))
            + ((sorted_unique post).length : ℝ) * Real.log (1 / (rs.length : ℝ))) := by
    intro l hl
    rw [calculate_log_prob_train, if_pos ⟨hl, hcond l hl⟩, sum_score_term_unseen rs t v l _ hU]
  constructor
  · intro l hl
    rw [hval l hl, posts_per_label_train, getD_stored, total_posts_train]
  · intro hne
    obtain ⟨L, sL, hp, hL, hsL, hmax, hmin⟩ :=
      argmax_of_sorted_labels (fun a b => Real.log ((a : ℝ) / (b : ℝ)))
        (train (fresh t v) rs) post hne (sorted_labels_train rs t v)
        (fun l hl => ⟨_, hval l hl⟩)
    refine ⟨L, hp, hL, ?_⟩
    intro l hl
    have hposl : 0 < count_label rs l :=
      (count_label_pos rs l).2 ((mem_labels_train rs t v l).1 hl)
    have hposL : 0 < count_label rs L :=
      (count_label_pos rs L).2 ((mem_labels_train rs t v L).1 hL)
    have hN : 0 < rs.length := lt_of_lt_of_le hposl (count_label_le rs l)
    have hsL' := hsL
    rw [hval L hL] at hsL'
    have hle := hmax l hl _ (hval l hl)
    rw [← Option.some.inj hsL'] at hle
    simp only [posts_per_label_train, getD_stored]
    refine ⟨(log_prior_le_iff _ _ _ hposl hposL hN _).1 hle, ?_⟩
    intro heq
    apply hmin l hl
    rw [hval l hl, ← Option.some.inj hsL', heq]

/-- Claim C11 fails on the code, by the defect of claim C15. After training on the rows
`(a, "")` and `(b, "y")`, the document `["x"]` has no word in `all_words`, yet the score
for the label `a` is not `ln(1/2) + 1 * ln(1/2)`: the call throws at
`word_count_per_label.at(a)`, and so does `predict`. Whenever the document is empty or every
label has a row with a non-empty word set, the claim holds: each label `l` scores
`ln(posts_per_label[l] / total_posts) + n * ln(1 / total_posts)`, with `n` the number of
distinct words, and `predict` returns the smallest label of largest `posts_per_label`. -/
theorem unseen_document_fails_for_label_without_words :
    ((∀ w ∈ ["x".toList], w ∉ (train (fresh 0 0)
          [⟨"a".toList, "".toList⟩, ⟨"b".toList, "y".toList⟩]).all_words) ∧
      "a".toList ∈ (train (fresh 0 0)
          [⟨"a".toList, "".toList⟩, ⟨"b".toList, "y".toList⟩]).labels ∧
      calculate_log_prob (fun a b => Real.log ((a : ℝ) / (b : ℝ)))
        (train (fresh 0 0) [⟨"a".toList, "".toList⟩, ⟨"b".toList, "y".toList⟩])
        (sorted_unique ["x".toList]) "a".toList = none ∧
      predict (fun a b => Real.log ((a : ℝ) / (b : ℝ)))
        (train (fresh 0 0) [⟨"a".toList, "".toList⟩, ⟨"b".toList, "y".toList⟩])
        ["x".toList] = none) ∧
    (∀ (rs : List Record) (t v : Nat) (post : List Str),
      (∀ w ∈ post, w ∉ (train (fresh t v) rs).all_words) →
      (post = [] ∨ ∀ l ∈ (train (fresh t v) rs).labels,
        ∃ r ∈ rs, r.tag = l ∧ unique_words r.content ≠ []) →
      (∀ l ∈ (train (fresh t v) rs).labels,
        calculate_log_prob (fun a b => Real.log ((a : ℝ) / (b : ℝ))) (train (fresh t v) rs)
            (sorted_unique post) l
          = some (Real.log (((mapFind l (train (fresh t v) rs).posts_per_label).getD 0 : ℝ)
                / ((train (fresh t v) rs).total_posts : ℝ))
              + ((sorted_unique post).length : ℝ)
                * Real.log (1 / ((train (fresh t v) rs).total_posts : ℝ)))) ∧
      ((train (fresh t v) rs).labels ≠ [] →
        ∃ L, predict (fun a b => Real.log ((a : ℝ) / (b : ℝ))) (train (fresh t v) rs) post
            = some L ∧ L ∈ (train (fresh t v) rs).labels ∧
          ∀ l ∈ (train (fresh t v) rs).labels,
            (mapFind l (train (fresh t v) rs).posts_per_label).getD 0
                ≤ (mapFind L (train (fresh t v) rs).posts_per_label).getD 0 ∧
              ((mapFind l (train (fresh t v) rs).posts_per_label).getD 0
                  = (mapFind L (train (fresh t v) rs).posts_per_label).getD 0 → L ≤ l))) :=
  ⟨⟨by decide, by decide, rfl, rfl⟩, unseen_document_scores⟩

end NaiveBayes
